import Mathlib

/-!
Verification development for the xmlctx namespace-aware XML decoder.

The decoder (Go package xmlctx, single file) is shallowly embedded below.
Go strings are modelled as lists of characters; the helpers mirror the
exact operations the source uses from the strings and strconv packages.
The reflection-driven decode engine is embedded over a closed universe of
target types (string, bool, fixed-width integers, xml.Name, attribute
lists, structs, pointers, slices) that covers every kind the source
dispatches on.  The token stream is modelled as the decoder sees it: a
list of already namespace-resolved tokens, optionally terminated by a
stream error (none meaning clean io.EOF).
-/

namespace Xmlctx

/-- Go strings restricted to this package are modelled as lists of
characters. -/
abbrev Str := List Char

/-- Coercion from a Lean string literal into the model. -/
def gs (s : String) : Str := s.toList

/-- Go strings.SplitN(s, sep, 2) for a one-character separator: the part
before the first occurrence and, when the separator occurs, the part
after it. -/
def splitFirst (c : Char) : Str → Str × Option Str
  | [] => ([], none)
  | a :: as =>
    if a = c then ([], some as)
    else
      let r := splitFirst c as
      (a :: r.1, r.2)

/-- Occurrence of a single character in a string; Go strings.Contains with
a one-character needle. -/
def elemChar (c : Char) : Str → Bool
  | [] => false
  | a :: as => if a = c then true else elemChar c as

/-- Go strings.Split with a one-character separator. -/
def splitChar (c : Char) : Str → List Str
  | [] => [[]]
  | a :: as =>
    let r := splitChar c as
    if a = c then [] :: r
    else
      match r with
      | [] => [[a]]
      | h :: t => (a :: h) :: t

/-- Go strings.Join with a one-character separator. -/
def joinChar (c : Char) : List Str → Str
  | [] => []
  | [s] => s
  | s :: r => s ++ c :: joinChar c r

/-- Test whether the first string starts the second; Go
strings.HasPrefix. -/
def isPfxOf : Str → Str → Bool
  | [], _ => true
  | _ :: _, [] => false
  | a :: as, b :: bs => if a = b then isPfxOf as bs else false

/-- Go strings.Contains: substring search. -/
def containsSub (needle : Str) : Str → Bool
  | [] => isPfxOf needle []
  | a :: as => if isPfxOf needle (a :: as) then true else containsSub needle as

/-- Characters treated as space by Go strings.TrimSpace on the ASCII
range (unicode.IsSpace). -/
def goSpace (c : Char) : Bool :=
  c = ' ' ∨ c = '\t' ∨ c = '\n' ∨ c = Char.ofNat 11 ∨ c = Char.ofNat 12 ∨ c = '\r'

/-- Go strings.TrimSpace: drop leading and trailing whitespace, keep the
interior verbatim. -/
def trimSpace (s : Str) : Str :=
  ((s.dropWhile goSpace).reverse.dropWhile goSpace).reverse

/-- Numeric value of a decimal digit character. -/
def digitVal (c : Char) : Option Nat :=
  if '0' ≤ c ∧ c ≤ '9' then some (c.toNat - 48) else none

/-- Decimal value of a nonempty all-digit string. -/
def digitsVal : Str → Option Nat
  | [] => none
  | s =>
    s.foldl
      (fun acc c =>
        match acc, digitVal c with
        | some n, some d => some (n * 10 + d)
        | _, _ => none)
      (some 0)

def int64Max : Int := 9223372036854775807

def int64Min : Int := -9223372036854775808

/-- Modelled after Go strconv.ParseInt(s, 10, 64): optional sign followed
by decimal digits; failure on empty input, stray characters, or a value
outside the int64 range (Go reports ErrRange, which the decoder treats as
failure). -/
def parseInt64 (s : Str) : Option Int :=
  match s with
  | [] => none
  | c :: rest =>
    let p : Bool × Str :=
      if c = '-' then (true, rest) else if c = '+' then (false, rest) else (false, s)
    match digitsVal p.2 with
    | none => none
    | some n =>
      let v : Int := if p.1 then -(n : Int) else (n : Int)
      if v < int64Min ∨ int64Max < v then none else some v

/-- Modelled after Go strconv.ParseUint(s, 10, 64): decimal digits only
(no sign is permitted); failure outside the uint64 range. -/
def parseUint64 (s : Str) : Option Nat :=
  match digitsVal s with
  | none => none
  | some n => if n < 2 ^ 64 then some n else none

/-- Width in bits of a Go integer kind; 0 encodes the platform-sized int
and uint, which are 64 bits wide on the platforms the package targets. -/
def goWidth (bits : Nat) : Nat := if bits = 0 then 64 else bits

/-- Two's-complement truncation performed by reflect.Value.SetInt when the
field is narrower than int64. -/
def truncInt (bits : Nat) (v : Int) : Int :=
  let w := goWidth bits
  let m := v % ((2 : Int) ^ w)
  if ((2 : Int) ^ (w - 1)) ≤ m then m - (2 : Int) ^ w else m

/-- Truncation performed by reflect.Value.SetUint for narrow unsigned
fields. -/
def truncUint (bits : Nat) (n : Nat) : Nat := n % 2 ^ goWidth bits

/-- Resolved XML name as produced by the tokenizer: namespace URI (empty
meaning no namespace) and local name; mirrors encoding/xml Name. -/
structure XName where
  space : Str
  loc : Str
deriving DecidableEq

/-- Resolved attribute; mirrors encoding/xml Attr. -/
structure Attr where
  name : XName
  val : Str
deriving DecidableEq

/-- Tokens as the decoder consumes them from xml.Decoder.Token, with
namespaces already resolved. -/
inductive Token where
  | start (nm : XName) (atts : List Attr)
  | endE (nm : XName)
  | chardata (s : Str)
  | comment (s : Str)
deriving DecidableEq

/-- Errors the embedded decoder can return.  eofE stands for a bare io.EOF
escaping through a nested Skip; streamE carries a token-source error;
noFuel is the artificial out-of-fuel marker of the embedding; panicE
stands for a reflect panic (SetString on a non-string field). -/
inductive Err where
  | noFuel
  | eofE
  | streamE (s : Str)
  | parseIntE
  | parseUintE
  | unsupportedE
  | panicE
deriving DecidableEq

/-- Namespace context: the prefix-to-URI map given via WithNamespaces,
modelled as an association list with first-match lookup. -/
def lookupNs : List (Str × Str) → Str → Option Str
  | [], _ => none
  | (k, u) :: r, key => if k = key then some u else lookupNs r key

/-- Embedding of matchesField: does a struct tag name match an element
with the given local name and resolved namespace URI. -/
def matchesField (ctx : List (Str × Str)) (tag elemLocal elemNS : Str) : Bool :=
  if elemChar ':' tag then
    let p := splitFirst ':' tag
    let tagLocal := p.2.getD []
    match lookupNs ctx p.1 with
    | none => false
    | some expectedNS =>
      decide (tagLocal = elemLocal) && decide (expectedNS = elemNS)
  else if tag ≠ elemLocal then false
  else
    match lookupNs ctx [] with
    | some defaultNS => decide (elemNS = defaultNS)
    | none => decide (elemNS = [])

/-- Embedding of matchesAttribute: does a struct tag name match an
attribute identity. -/
def matchesAttribute (ctx : List (Str × Str)) (tag : Str) (attr : Attr) : Bool :=
  if elemChar ':' tag then
    let p := splitFirst ':' tag
    let tagLocal := p.2.getD []
    match lookupNs ctx p.1 with
    | none => false
    | some expectedNS =>
      decide (tagLocal = attr.name.loc) && decide (expectedNS = attr.name.space)
  else
    decide (tag = attr.name.loc)

/-- Closed universe of decode-target types, covering every reflect kind
the source dispatches on: string, bool, the signed and unsigned integer
families (bits = 0 encodes platform int or uint), xml.Name, a slice of
xml.Attr (target of any,attr fields), structs, pointers and slices.  A
struct field is (Go field name, raw xml tag, field type). -/
inductive Ty where
  | str
  | boolean
  | intT (bits : Nat)
  | uintT (bits : Nat)
  | nameT
  | attrListT
  | structT (fields : List (Str × Str × Ty))
  | ptrT (t : Ty)
  | sliceT (t : Ty)

/-- Runtime values of the universe above. -/
inductive Val where
  | str (s : Str)
  | boolean (b : Bool)
  | intV (i : Int)
  | uintV (n : Nat)
  | nameV (nm : XName)
  | attrList (atts : List Attr)
  | structV (vals : List Val)
  | ptrV (o : Option Val)
  | sliceV (vs : List Val)

mutual
/-- Zero value of a type, as produced by reflect.New(t).Elem(). -/
def zeroVal : Ty → Val
  | .str => .str []
  | .boolean => .boolean false
  | .intT _ => .intV 0
  | .uintT _ => .uintV 0
  | .nameT => .nameV ⟨[], []⟩
  | .attrListT => .attrList []
  | .structT fs => .structV (zeroFields fs)
  | .ptrT _ => .ptrV none
  | .sliceT _ => .sliceV []

/-- Zero values of a field list, in declaration order. -/
def zeroFields : List (Str × Str × Ty) → List Val
  | [] => []
  | f :: r => zeroVal f.2.2 :: zeroFields r
end

/-- Raw tag of field i (total; the engine only uses valid indices). -/
def tagAt (fs : List (Str × Str × Ty)) (i : Nat) : Str :=
  ((fs.get? i).map (fun f => f.2.1)).getD []

/-- Type of field i. -/
def tyAt (fs : List (Str × Str × Ty)) (i : Nat) : Ty :=
  ((fs.get? i).map (fun f => f.2.2)).getD .str

/-- Current value of field i. -/
def valAt (vs : List Val) (i : Nat) : Val :=
  (vs.get? i).getD (.str [])

/-- First index satisfying a predicate, in declaration order. -/
def findIdxP (p : Str × Str × Ty → Bool) : List (Str × Str × Ty) → Option Nat
  | [] => none
  | f :: r => if p f then some 0 else (findIdxP p r).map (· + 1)

/-- Embedding of findChardataField: first field whose nonempty tag
contains the substring chardata. -/
def findChardataIdx (fs : List (Str × Str × Ty)) : Option Nat :=
  findIdxP (fun f => !decide (f.2.1 = []) && containsSub (gs "chardata") f.2.1) fs

/-- Embedding of findCDataField: first field whose nonempty tag contains
cdata but not chardata. -/
def findCDataIdx (fs : List (Str × Str × Ty)) : Option Nat :=
  findIdxP
    (fun f =>
      !decide (f.2.1 = []) && containsSub (gs "cdata") f.2.1 &&
        !containsSub (gs "chardata") f.2.1)
    fs

/-- Embedding of findInnerXMLField. -/
def findInnerXMLIdx (fs : List (Str × Str × Ty)) : Option Nat :=
  findIdxP (fun f => !decide (f.2.1 = []) && containsSub (gs "innerxml") f.2.1) fs

/-- Embedding of findAnyField: tag contains ,any but not ,any,attr. -/
def findAnyIdx (fs : List (Str × Str × Ty)) : Option Nat :=
  findIdxP
    (fun f =>
      !decide (f.2.1 = []) && containsSub (gs ",any") f.2.1 &&
        !containsSub (gs ",any,attr") f.2.1)
    fs

/-- Embedding of findCommentField. -/
def findCommentIdx (fs : List (Str × Str × Ty)) : Option Nat :=
  findIdxP (fun f => !decide (f.2.1 = []) && containsSub (gs "comment") f.2.1) fs

/-- Shape test used by setXMLName (field type equals xml.Name). -/
def isNameT : Ty → Bool
  | .nameT => true
  | _ => false

/-- Shape test used by the any,attr capture (field type equals a slice of
xml.Attr). -/
def isAttrListT : Ty → Bool
  | .attrListT => true
  | _ => false

/-- Index of the field named XMLName of type xml.Name, if any. -/
def findXMLNameIdx (fs : List (Str × Str × Ty)) : Option Nat :=
  findIdxP (fun f => decide (f.1 = gs "XMLName") && isNameT f.2.2) fs

/-- Embedding of setXMLName: write the resolved element name into the
first XMLName field of type xml.Name, if the struct declares one. -/
def setXMLNameF (fs : List (Str × Str × Ty)) (vs : List Val) (nm : XName) : List Val :=
  match findXMLNameIdx fs with
  | some i => vs.set i (.nameV nm)
  | none => vs

/-- Embedding of setFieldValue: coerce a raw attribute value string into a
field.  Pointers are allocated and written through; strings are stored
verbatim; bool compares the raw text with the literal true; integers are
parsed by ParseInt and ParseUint on the raw text and truncated to the
field width by SetInt and SetUint; every other kind is an unsupported
field type error.  Note the source applies no whitespace trimming here. -/
def setFieldValue : Ty → Val → Str → Except Err Val
  | .ptrT t, v, s =>
    let inner := match v with | .ptrV (some w) => w | _ => zeroVal t
    (setFieldValue t inner s).map (fun w => .ptrV (some w))
  | .str, _, s => .ok (.str s)
  | .boolean, _, s => .ok (.boolean (decide (s = gs "true")))
  | .intT b, _, s =>
    match parseInt64 s with
    | none => .error .parseIntE
    | some n => .ok (.intV (truncInt b n))
  | .uintT b, _, s =>
    match parseUint64 s with
    | none => .error .parseUintE
    | some n => .ok (.uintV (truncUint b n))
  | _, _, _ => .error .unsupportedE

/-- Search loop of findFieldWithTag over the remaining fields, carrying
the absolute index of the head field. -/
def ffwtGo (ctx : List (Str × Str)) (elemLocal elemNS : Str) :
    List (Str × Str × Ty) → Nat → Option (Nat × Str)
  | [], _ => none
  | f :: r, i =>
    let tag := f.2.1
    let next := ffwtGo ctx elemLocal elemNS r (i + 1)
    if tag = [] ∨ tag = gs "-" then next
    else
      let tagParts := splitChar ',' tag
      let tagName := tagParts.headD []
      if 1 < tagParts.length ∧
          ((tagParts.get? 1).getD [] = gs "attr" ∨
            (tagParts.get? 1).getD [] = gs "chardata" ∨
            isPfxOf (gs "xmlns") (tagParts.headD []) = true) then next
      else if containsSub (gs "attr") tag ∨ isPfxOf (gs "xmlns") tagName then next
      else
        let firstSegment :=
          if elemChar '>' tagName then (splitChar '>' tagName).headD [] else tagName
        if matchesField ctx firstSegment elemLocal elemNS then some (i, tagName) else next

/-- Embedding of findFieldWithTag: first field whose tag matches the
element identity, skipping blank and skip tags, attribute and chardata
fields, and xmlns carrier fields; for a path tag only the first segment
is compared.  Returns the field index and its tag name. -/
def findFieldWithTag (ctx : List (Str × Str)) (fs : List (Str × Str × Ty))
    (elemLocal elemNS : Str) : Option (Nat × Str) :=
  ffwtGo ctx elemLocal elemNS fs 0

/-- Search loop of findAllPathFieldsWithPrefix over the remaining fields,
carrying the absolute index of the head field. -/
def fapfGo (ctx : List (Str × Str)) (elemLocal elemNS : Str) :
    List (Str × Str × Ty) → Nat → List (Nat × Str)
  | [], _ => []
  | f :: r, i =>
    let tag := f.2.1
    let next := fapfGo ctx elemLocal elemNS r (i + 1)
    if tag = [] ∨ tag = gs "-" then next
    else
      let tagParts := splitChar ',' tag
      let tagName := tagParts.headD []
      if 1 < tagParts.length ∧
          ((tagParts.get? 1).getD [] = gs "attr" ∨
            (tagParts.get? 1).getD [] = gs "chardata") then next
      else if containsSub (gs "attr") tag ∨ isPfxOf (gs "xmlns") tagName then next
      else if !elemChar '>' tagName then next
      else
        let firstSegment := (splitChar '>' tagName).headD []
        if matchesField ctx firstSegment elemLocal elemNS then (i, tagName) :: next
        else next

/-- Embedding of findAllPathFieldsWithPrefix (the final word of the Go
name is spelled Pfx here): all fields with a path tag whose first segment
matches the element identity, as (field index, tag name) pairs. -/
def findAllPathFieldsWithPfx (ctx : List (Str × Str)) (fs : List (Str × Str × Ty))
    (elemLocal elemNS : Str) : List (Nat × Str) :=
  fapfGo ctx elemLocal elemNS fs 0

/-- Second pass of decodeAttributes: match each attribute field against
the first matching attribute in document order, coerce it via
setFieldValue and record the matched attribute index. -/
def attrPass2 (ctx : List (Str × Str)) (atts : List Attr) (anyIdx : Option Nat) :
    List (Nat × (Str × Str × Ty)) → List Val → List Nat → Except Err (List Val × List Nat)
  | [], vs, matched => .ok (vs, matched)
  | (i, f) :: r, vs, matched =>
    if anyIdx = some i then attrPass2 ctx atts anyIdx r vs matched
    else
      let tag := f.2.1
      if tag = [] ∨ !containsSub (gs "attr") tag then attrPass2 ctx atts anyIdx r vs matched
      else if containsSub (gs ",any,attr") tag then attrPass2 ctx atts anyIdx r vs matched
      else
        let attrName := (splitChar ',' tag).headD []
        if isPfxOf (gs "xmlns") attrName then attrPass2 ctx atts anyIdx r vs matched
        else
          match atts.enum.find? (fun p => matchesAttribute ctx attrName p.2) with
          | none => attrPass2 ctx atts anyIdx r vs matched
          | some (k, a) =>
            match setFieldValue f.2.2 (valAt vs i) a.val with
            | .error e => .error e
            | .ok w => attrPass2 ctx atts anyIdx r (vs.set i w) (matched ++ [k])

/-- Embedding of decodeAttributes: first locate the any,attr field, then
match each attribute field (tag contains attr, name is the first comma
segment, xmlns carriers skipped) against the first matching attribute,
coercing with setFieldValue, and finally store the unmatched attributes
into the any,attr field when its type is a slice of xml.Attr. -/
def decodeAttributes (ctx : List (Str × Str)) (fs : List (Str × Str × Ty))
    (vs : List Val) (atts : List Attr) : Except Err (List Val) :=
  let anyIdx :=
    findIdxP (fun f => !decide (f.2.1 = []) && containsSub (gs ",any,attr") f.2.1) fs
  match attrPass2 ctx atts anyIdx (fs.enum) vs [] with
  | .error e => .error e
  | .ok (vs1, matched) =>
    match anyIdx with
    | none => .ok vs1
    | some j =>
      let unmatched := (atts.enum.filter (fun p => !matched.contains p.1)).map (·.2)
      if unmatched.length ≠ 0 ∧ isAttrListT (tyAt fs j) = true then
        .ok (vs1.set j (.attrList unmatched))
      else .ok vs1

/-- Accumulating loop of decodeString.  Character data tokens are
appended; the end element stores the whitespace-trimmed text; start
elements and comments fall through the switch and are ignored; a clean
io.EOF breaks the loop and returns success with the field untouched. -/
def decodeStrAux (v : Val) (fin : Option Str) (acc : Str) : List Token → Except Err Val × List Token
  | [] =>
    match fin with
    | none => (.ok v, [])
    | some e => (.error (.streamE e), [])
  | .chardata s :: ts => decodeStrAux v fin (acc ++ s) ts
  | .endE _ :: ts => (.ok (.str (trimSpace acc)), ts)
  | _ :: ts => decodeStrAux v fin acc ts

/-- Embedding of decodeString. -/
def decodeString (v : Val) (fin : Option Str) (toks : List Token) : Except Err Val × List Token :=
  decodeStrAux v fin [] toks

/-- Accumulating loop of decodeBool; the trimmed text is compared with the
literal true, any other text yields false. -/
def decodeBoolAux (v : Val) (fin : Option Str) (acc : Str) : List Token → Except Err Val × List Token
  | [] =>
    match fin with
    | none => (.ok v, [])
    | some e => (.error (.streamE e), [])
  | .chardata s :: ts => decodeBoolAux v fin (acc ++ s) ts
  | .endE _ :: ts => (.ok (.boolean (decide (trimSpace acc = gs "true"))), ts)
  | _ :: ts => decodeBoolAux v fin acc ts

/-- Embedding of decodeBool. -/
def decodeBool (v : Val) (fin : Option Str) (toks : List Token) : Except Err Val × List Token :=
  decodeBoolAux v fin [] toks

/-- Accumulating loop of decodeInt: ParseInt on the trimmed text, then
SetInt, which truncates to the field width. -/
def decodeIntAux (bits : Nat) (v : Val) (fin : Option Str) (acc : Str) :
    List Token → Except Err Val × List Token
  | [] =>
    match fin with
    | none => (.ok v, [])
    | some e => (.error (.streamE e), [])
  | .chardata s :: ts => decodeIntAux bits v fin (acc ++ s) ts
  | .endE _ :: ts =>
    match parseInt64 (trimSpace acc) with
    | none => (.error .parseIntE, ts)
    | some n => (.ok (.intV (truncInt bits n)), ts)
  | _ :: ts => decodeIntAux bits v fin acc ts

/-- Embedding of decodeInt. -/
def decodeInt (bits : Nat) (v : Val) (fin : Option Str) (toks : List Token) :
    Except Err Val × List Token :=
  decodeIntAux bits v fin [] toks

/-- Accumulating loop of decodeUint: ParseUint on the trimmed text, then
SetUint, which truncates to the field width. -/
def decodeUintAux (bits : Nat) (v : Val) (fin : Option Str) (acc : Str) :
    List Token → Except Err Val × List Token
  | [] =>
    match fin with
    | none => (.ok v, [])
    | some e => (.error (.streamE e), [])
  | .chardata s :: ts => decodeUintAux bits v fin (acc ++ s) ts
  | .endE _ :: ts =>
    match parseUint64 (trimSpace acc) with
    | none => (.error .parseUintE, ts)
    | some n => (.ok (.uintV (truncUint bits n)), ts)
  | _ :: ts => decodeUintAux bits v fin acc ts

/-- Embedding of decodeUint. -/
def decodeUint (bits : Nat) (v : Val) (fin : Option Str) (toks : List Token) :
    Except Err Val × List Token :=
  decodeUintAux bits v fin [] toks

/-- Embedding of xml.Decoder.Skip as the source relies on it: consume
tokens until the end element matching the current depth.  Inside Skip a
bare io.EOF is an error (eofE), unlike the frame loops. -/
def skipToks (fin : Option Str) (depth : Nat) : List Token → Except Err (List Token)
  | [] =>
    match fin with
    | none => .error .eofE
    | some e => .error (.streamE e)
  | .start _ _ :: ts => skipToks fin (depth + 1) ts
  | .endE _ :: ts =>
    match depth with
    | 0 => .ok ts
    | Nat.succ d => skipToks fin d ts
  | _ :: ts => skipToks fin depth ts

/-- Raw-subtree capture loop of the innerxml branch of decodeStruct:
collect every token up to the end element of the enclosing frame.  A
clean io.EOF breaks the loop with nothing assigned (none); a stream error
aborts. -/
def collectInner (fin : Option Str) (depth : Nat) (acc : List Token) :
    List Token → Except Err (Option (List Token) × List Token)
  | [] =>
    match fin with
    | none => .ok (none, [])
    | some e => .error (.streamE e)
  | .start nm atts :: ts => collectInner fin (depth + 1) (acc ++ [.start nm atts]) ts
  | .endE nm :: ts =>
    match depth with
    | 0 => .ok (some acc, ts)
    | Nat.succ d => collectInner fin d (acc ++ [.endE nm]) ts
  | .chardata s :: ts => collectInner fin depth (acc ++ [.chardata s]) ts
  | .comment s :: ts => collectInner fin depth (acc ++ [.comment s]) ts

/-- Rendering of a resolved name used by the innerxml serializer model. -/
def encodeName (nm : XName) : Str :=
  if nm.space = [] then nm.loc else nm.space ++ ':' :: nm.loc

/-- Deterministic serializer standing in for the external xml.Encoder
used by the innerxml capture; it is a pure function of the resolved
tokens, which is all any claim requires of it. -/
def encodeToks : List Token → Str
  | [] => []
  | .start nm atts :: r =>
    '<' :: encodeName nm ++
      atts.foldr (fun a acc => ' ' :: encodeName a.name ++ '=' :: '"' :: a.val ++ '"' :: acc) [] ++
      '>' :: encodeToks r
  | .endE nm :: r => '<' :: '/' :: encodeName nm ++ '>' :: encodeToks r
  | .chardata s :: r => s ++ encodeToks r
  | .comment s :: r => gs "<!--" ++ s ++ gs "-->" ++ encodeToks r

/-- Write the trimmed accumulated text into field i with SetString, which
panics unless the field is a string. -/
def setStrAt (vs : List Val) (i : Nat) (s : Str) : Except Err (List Val) :=
  match valAt vs i with
  | .str _ => .ok (vs.set i (.str s))
  | _ => .error .panicE

/-- End-of-frame assignment of the accumulated character data: the
chardata field wins whenever it exists; the cdata field receives the text
only when no chardata field exists. -/
def assignChardata (chIdx cdIdx : Option Nat) (chAcc : Str) (vs : List Val) :
    Except Err (List Val) :=
  if chAcc = [] then .ok vs
  else
    match chIdx with
    | some i => setStrAt vs i (trimSpace chAcc)
    | none =>
      match cdIdx with
      | some i => setStrAt vs i (trimSpace chAcc)
      | none => .ok vs

/-- End-of-frame assignment of the accumulated comment text. -/
def assignComment (comIdx : Option Nat) (comAcc : Str) (vs : List Val) :
    Except Err (List Val) :=
  if comAcc = [] then .ok vs
  else
    match comIdx with
    | some i => setStrAt vs i (trimSpace comAcc)
    | none => .ok vs

/-- Requests of the decode engine; each constructor is one activation of
a mutually recursive function of the source.  elemR is decodeElement,
structR the head of decodeStruct, loopR its child loop with the special
field indices and the two accumulators as loop state, pathR is
decodeMultiplePathFields over members paired with their found flags, and
anyR is decodeAnyElement. -/
inductive Req where
  | elemR (ty : Ty) (v : Val) (nm : XName) (atts : List Attr)
  | structR (fs : List (Str × Str × Ty)) (vs : List Val) (nm : XName) (atts : List Attr)
  | loopR (fs : List (Str × Str × Ty)) (vs : List Val)
      (anyIdx chIdx cdIdx comIdx : Option Nat) (chAcc comAcc : Str)
  | pathR (fs : List (Str × Str × Ty)) (members : List ((Nat × Str) × Bool)) (vs : List Val)
  | anyR (ty : Ty) (v : Val) (nm : XName) (atts : List Attr)

/-- Results of the decode engine: a single value or a struct field
vector. -/
inductive Resp where
  | one (v : Val)
  | many (vs : List Val)

/-- Per-token member pass of decodeMultiplePathFields: walk the members
in declaration order; a terminal member (exactly two path segments whose
second matches the element) is decoded in place by the callback, a deeper
member is marked and collected into the sub-group with its path shortened
by one segment.  The source marks deeper members found only after the
recursive call succeeds, but a failure aborts the whole decode, so
marking them here is observationally identical. -/
def foldMembers (ctx : List (Str × Str))
    (stepE : Ty → Val → XName → List Attr → List Token → Except Err Val × List Token)
    (fs : List (Str × Str × Ty)) (cnm : XName) (catts : List Attr) :
    List ((Nat × Str) × Bool) → List Val → List Token →
      Except Err (List ((Nat × Str) × Bool) × List Val × Bool × List (Nat × Str)) × List Token
  | [], vs, tk => (.ok ([], vs, false, []), tk)
  | (m, fnd) :: rest, vs, tk =>
    if fnd then
      match foldMembers ctx stepE fs cnm catts rest vs tk with
      | (.ok (ms, vs', any2, deep), tk') => (.ok ((m, fnd) :: ms, vs', any2, deep), tk')
      | (.error e, tk') => (.error e, tk')
    else
      let segs := splitChar '>' m.2
      if segs.length < 2 then
        match foldMembers ctx stepE fs cnm catts rest vs tk with
        | (.ok (ms, vs', any2, deep), tk') => (.ok ((m, false) :: ms, vs', any2, deep), tk')
        | (.error e, tk') => (.error e, tk')
      else
        let nxt := (segs.get? 1).getD []
        if matchesField ctx nxt cnm.loc cnm.space then
          if segs.length = 2 then
            match stepE (tyAt fs m.1) (valAt vs m.1) cnm catts tk with
            | (.ok w, tk') =>
              match foldMembers ctx stepE fs cnm catts rest (vs.set m.1 w) tk' with
              | (.ok (ms, vs', _, deep), tk'') => (.ok ((m, true) :: ms, vs', true, deep), tk'')
              | (.error e, tk'') => (.error e, tk'')
            | (.error e, tk') => (.error e, tk')
          else
            match foldMembers ctx stepE fs cnm catts rest vs tk with
            | (.ok (ms, vs', _, deep), tk') =>
              (.ok ((m, true) :: ms, vs', true, (m.1, joinChar '>' (segs.drop 1)) :: deep), tk')
            | (.error e, tk') => (.error e, tk')
        else
          match foldMembers ctx stepE fs cnm catts rest vs tk with
          | (.ok (ms, vs', any2, deep), tk') => (.ok ((m, false) :: ms, vs', any2, deep), tk')
          | (.error e, tk') => (.error e, tk')

/-- The decode engine.  One fuel unit is spent per activation and per
loop iteration; every recursive call uses strictly smaller fuel, so the
definition is structural and evaluates inside the kernel.  Running out of
fuel yields the artificial noFuel error, which never arises when the fuel
exceeds the activation depth actually used. -/
def run (ctx : List (Str × Str)) : Nat → Req → Option Str → List Token →
    Except Err Resp × List Token
  | 0, _, _, toks => (.error .noFuel, toks)
  | Nat.succ f, req, fin, toks =>
    match req with
    | .elemR ty v nm atts =>
      match ty with
      | .ptrT t =>
        let inner := match v with | .ptrV (some w) => w | _ => zeroVal t
        (match run ctx f (.elemR t inner nm atts) fin toks with
          | (.ok (.one w), ts) => (.ok (.one (.ptrV (some w))), ts)
          | (.ok _, ts) => (.error .panicE, ts)
          | (.error e, ts) => (.error e, ts))
      | .structT sfs =>
        let svs := match v with | .structV vs => vs | _ => []
        (match run ctx f (.structR sfs svs nm atts) fin toks with
          | (.ok (.many vs'), ts) => (.ok (.one (.structV vs')), ts)
          | (.ok _, ts) => (.error .panicE, ts)
          | (.error e, ts) => (.error e, ts))
      | .nameT =>
        -- xml.Name is a struct whose two fields carry no tags, so its
        -- generic struct decode consumes the frame and changes nothing.
        (match run ctx f (.structR [] [] nm atts) fin toks with
          | (.ok _, ts) => (.ok (.one v), ts)
          | (.error e, ts) => (.error e, ts))
      | .attrListT =>
        -- A slice of xml.Attr: one zero element is decoded generically
        -- from the subtree (no tagged fields) and appended.
        (match run ctx f (.structR [] [] nm atts) fin toks with
          | (.ok _, ts) =>
            (match v with
              | .attrList as => (.ok (.one (.attrList (as ++ [⟨⟨[], []⟩, []⟩]))), ts)
              | _ => (.error .panicE, ts))
          | (.error e, ts) => (.error e, ts))
      | .str =>
        (match decodeString v fin toks with
          | (.ok w, ts) => (.ok (.one w), ts)
          | (.error e, ts) => (.error e, ts))
      | .boolean =>
        (match decodeBool v fin toks with
          | (.ok w, ts) => (.ok (.one w), ts)
          | (.error e, ts) => (.error e, ts))
      | .intT b =>
        (match decodeInt b v fin toks with
          | (.ok w, ts) => (.ok (.one w), ts)
          | (.error e, ts) => (.error e, ts))
      | .uintT b =>
        (match decodeUint b v fin toks with
          | (.ok w, ts) => (.ok (.one w), ts)
          | (.error e, ts) => (.error e, ts))
      | .sliceT t =>
        (match run ctx f (.elemR t (zeroVal t) nm atts) fin toks with
          | (.ok (.one w), ts) =>
            (match v with
              | .sliceV vsl => (.ok (.one (.sliceV (vsl ++ [w]))), ts)
              | _ => (.error .panicE, ts))
          | (.ok _, ts) => (.error .panicE, ts)
          | (.error e, ts) => (.error e, ts))
    | .structR fs vs nm atts =>
      let vs0 := setXMLNameF fs vs nm
      (match decodeAttributes ctx fs vs0 atts with
        | .error e => (.error e, toks)
        | .ok vs1 =>
          match findInnerXMLIdx fs with
          | some j =>
            (match collectInner fin 0 [] toks with
              | .error e => (.error e, [])
              | .ok (none, _) => (.ok (.many vs1), [])
              | .ok (some content, ts) =>
                let vs2 :=
                  match valAt vs1 j with
                  | .str _ => vs1.set j (.str (encodeToks content))
                  | _ => vs1
                (.ok (.many vs2), ts))
          | none =>
            run ctx f
              (.loopR fs vs1 (findAnyIdx fs) (findChardataIdx fs) (findCDataIdx fs)
                (findCommentIdx fs) [] []) fin toks)
    | .loopR fs vs anyIdx chIdx cdIdx comIdx chAcc comAcc =>
      (match toks with
        | [] =>
          (match fin with
            | some e => (.error (.streamE e), [])
            | none => (.ok (.many vs), []))
        | .start cnm catts :: ts =>
          let pfs := findAllPathFieldsWithPfx ctx fs cnm.loc cnm.space
          if pfs.isEmpty then
            match findFieldWithTag ctx fs cnm.loc cnm.space with
            | some (i, _) =>
              (match run ctx f (.elemR (tyAt fs i) (valAt vs i) cnm catts) fin ts with
                | (.ok (.one w), ts') =>
                  run ctx f (.loopR fs (vs.set i w) anyIdx chIdx cdIdx comIdx chAcc comAcc) fin ts'
                | (.ok _, ts') => (.error .panicE, ts')
                | (.error e, ts') => (.error e, ts'))
            | none =>
              match anyIdx with
              | some j =>
                (match run ctx f (.anyR (tyAt fs j) (valAt vs j) cnm catts) fin ts with
                  | (.ok (.one w), ts') =>
                    run ctx f (.loopR fs (vs.set j w) anyIdx chIdx cdIdx comIdx chAcc comAcc) fin ts'
                  | (.ok _, ts') => (.error .panicE, ts')
                  | (.error e, ts') => (.error e, ts'))
              | none =>
                (match skipToks fin 0 ts with
                  | .ok ts' =>
                    run ctx f (.loopR fs vs anyIdx chIdx cdIdx comIdx chAcc comAcc) fin ts'
                  | .error e => (.error e, []))
          else
            (match run ctx f (.pathR fs (pfs.map (fun m => (m, false))) vs) fin ts with
              | (.ok (.many vs'), ts') =>
                run ctx f (.loopR fs vs' anyIdx chIdx cdIdx comIdx chAcc comAcc) fin ts'
              | (.ok _, ts') => (.error .panicE, ts')
              | (.error e, ts') => (.error e, ts'))
        | .chardata s :: ts =>
          let chAcc' := if chIdx.isSome || cdIdx.isSome then chAcc ++ s else chAcc
          run ctx f (.loopR fs vs anyIdx chIdx cdIdx comIdx chAcc' comAcc) fin ts
        | .comment s :: ts =>
          let comAcc' :=
            if comIdx.isSome then
              (if comAcc = [] then comAcc ++ s else comAcc ++ '\n' :: s)
            else comAcc
          run ctx f (.loopR fs vs anyIdx chIdx cdIdx comIdx chAcc comAcc') fin ts
        | .endE _ :: ts =>
          (match assignChardata chIdx cdIdx chAcc vs with
            | .error e => (.error e, ts)
            | .ok vsA =>
              match assignComment comIdx comAcc vsA with
              | .error e => (.error e, ts)
              | .ok vsB => (.ok (.many vsB), ts)))
    | .pathR fs members vs =>
      (match toks with
        | [] =>
          (match fin with
            | some e => (.error (.streamE e), [])
            | none => (.ok (.many vs), []))
        | .endE _ :: ts => (.ok (.many vs), ts)
        | .start cnm catts :: ts =>
          let stepE := fun ty v nm' atts' tk =>
            match run ctx f (.elemR ty v nm' atts') fin tk with
            | (.ok (.one w), tk') => (Except.ok w, tk')
            | (.ok _, tk') => (Except.error Err.panicE, tk')
            | (.error e, tk') => (Except.error e, tk')
          (match foldMembers ctx stepE fs cnm catts members vs ts with
            | (.error e, ts') => (.error e, ts')
            | (.ok (members', vs', matchedAny, deeper), ts') =>
              if deeper.isEmpty then
                if matchedAny then run ctx f (.pathR fs members' vs') fin ts'
                else
                  match skipToks fin 0 ts' with
                  | .ok ts'' => run ctx f (.pathR fs members' vs') fin ts''
                  | .error e => (.error e, [])
              else
                match run ctx f (.pathR fs (deeper.map (fun m => (m, false))) vs') fin ts' with
                | (.ok (.many vs''), ts'') => run ctx f (.pathR fs members' vs'') fin ts''
                | (.ok _, ts'') => (.error .panicE, ts'')
                | (.error e, ts'') => (.error e, ts''))
        | _ :: ts => run ctx f (.pathR fs members vs) fin ts)
    | .anyR ty v cnm catts =>
      match ty with
      | .sliceT t =>
        (match run ctx f (.elemR t (zeroVal t) cnm catts) fin toks with
          | (.ok (.one w), ts) =>
            (match v with
              | .sliceV vsl => (.ok (.one (.sliceV (vsl ++ [w]))), ts)
              | _ => (.error .panicE, ts))
          | (.ok _, ts) => (.error .panicE, ts)
          | (.error _, tsE) =>
            (match skipToks fin 0 tsE with
              | .ok ts' => (.ok (.one v), ts')
              | .error e => (.error e, [])))
      | .attrListT =>
        (match run ctx f (.structR [] [] cnm catts) fin toks with
          | (.ok _, ts) =>
            (match v with
              | .attrList as => (.ok (.one (.attrList (as ++ [⟨⟨[], []⟩, []⟩]))), ts)
              | _ => (.error .panicE, ts))
          | (.error _, tsE) =>
            (match skipToks fin 0 tsE with
              | .ok ts' => (.ok (.one v), ts')
              | .error e => (.error e, [])))
      | _ => run ctx f (.elemR ty v cnm catts) fin toks

/-- Embedding of decodeElement as a function from a start element and the
following tokens to the decoded value and the rest of the stream. -/
def decodeElement (ctx : List (Str × Str)) (fuel : Nat) (ty : Ty) (v : Val) (nm : XName)
    (atts : List Attr) (fin : Option Str) (toks : List Token) : Except Err Val × List Token :=
  match run ctx fuel (.elemR ty v nm atts) fin toks with
  | (.ok (.one w), ts) => (.ok w, ts)
  | (.ok _, ts) => (.error .panicE, ts)
  | (.error e, ts) => (.error e, ts)

/-- Embedding of decodeStruct over a field vector. -/
def decodeStruct (ctx : List (Str × Str)) (fuel : Nat) (fs : List (Str × Str × Ty))
    (vs : List Val) (nm : XName) (atts : List Attr) (fin : Option Str) (toks : List Token) :
    Except Err (List Val) × List Token :=
  match run ctx fuel (.structR fs vs nm atts) fin toks with
  | (.ok (.many vs'), ts) => (.ok vs', ts)
  | (.ok _, ts) => (.error .panicE, ts)
  | (.error e, ts) => (.error e, ts)

/-- Embedding of Decoder.Decode: skip tokens until the root start
element; clean end of stream before any start element is a no-op
success. -/
def topDecode (ctx : List (Str × Str)) (fuel : Nat) (ty : Ty) (v : Val) (fin : Option Str) :
    List Token → Except Err Val × List Token
  | [] =>
    (match fin with
      | none => .ok v
      | some e => .error (.streamE e), [])
  | .start nm atts :: ts => decodeElement ctx fuel ty v nm atts fin ts
  | _ :: ts => topDecode ctx fuel ty v fin ts

/-! ### Document and tokenizer model

The low-level tokenizer is Go encoding/xml, an external collaborator the
spec treats as out of scope and assumed correct.  The definitions below
are therefore modelled from the spec, not translated from source under
src/. -/

/-- Modelled from the spec: a markup document tree carrying the literal
prefixes and xmlns declarations as written.  An element has a literal
prefix (empty for none), a local name, an optional default-namespace
declaration, prefixed namespace declarations, attributes as (literal
prefix, local name, value), and children. -/
inductive XNode where
  | el (pfx loc : Str) (defD : Option Str) (decls : List (Str × Str))
      (atts : List (Str × Str × Str)) (kids : List XNode)
  | txt (s : Str)
  | com (s : Str)

/-- Modelled from the spec: single-element name resolution.  An empty
prefix takes the in-scope default namespace; a declared prefix takes its
URI; an undeclared prefix becomes a literal namespace, the encoding/xml
behaviour this repository documents in its tests. -/
def resolveQ (defNs : Str) (binds : List (Str × Str)) (pfx loc : Str) : XName :=
  if pfx = [] then ⟨defNs, loc⟩ else ⟨(lookupNs binds pfx).getD pfx, loc⟩

/-- Modelled from the spec: attribute resolution; an unprefixed attribute
is in no namespace (the default namespace never applies to attributes). -/
def resolveAtt (binds : List (Str × Str)) (a : Str × Str × Str) : Attr :=
  if a.1 = [] then ⟨⟨[], a.2.1⟩, a.2.2⟩
  else ⟨⟨(lookupNs binds a.1).getD a.1, a.2.1⟩, a.2.2⟩

/-- Modelled from the spec: the namespace-resolving tokenizer.  It turns a
document tree into the resolved token stream the decoder consumes,
threading the default namespace and the prefix bindings through nested
scopes.  Fuel bounds the element depth; it is spent only on elements. -/
def tokNode : Nat → Str → List (Str × Str) → XNode → List Token
  | _, _, _, .txt s => [.chardata s]
  | _, _, _, .com s => [.comment s]
  | 0, _, _, .el _ _ _ _ _ _ => []
  | Nat.succ f, defNs, binds, .el pfx loc defD decls atts kids =>
    let dn := defD.getD defNs
    let bs := decls ++ binds
    let nm := resolveQ dn bs pfx loc
    .start nm (atts.map (resolveAtt bs)) ::
      ((kids.map (tokNode f dn bs)).flatten ++ [.endE nm])

/-- Namespace well-formedness at bounded depth: every nonempty literal
prefix used by an element or attribute is declared in scope. -/
def wfNode : Nat → List (Str × Str) → XNode → Bool
  | _, _, .txt _ => true
  | _, _, .com _ => true
  | 0, _, .el _ _ _ _ _ _ => false
  | Nat.succ f, binds, .el pfx _ _ decls atts kids =>
    let bs := decls ++ binds
    (decide (pfx = []) || (lookupNs bs pfx).isSome) &&
      atts.all (fun a => decide (a.1 = []) || (lookupNs bs a.1).isSome) &&
      kids.all (wfNode f bs)

/-- Rename the prefix bindings of an environment. -/
def renBinds (rn : Str → Str) (binds : List (Str × Str)) : List (Str × Str) :=
  binds.map (fun d => (rn d.1, d.2))

/-- Rewrite every literal prefix of a document (declarations and use
sites alike) through a renaming function, leaving local names, URIs,
text and structure untouched. -/
def renameNode (rn : Str → Str) : XNode → XNode
  | .txt s => .txt s
  | .com s => .com s
  | .el pfx loc defD decls atts kids =>
    .el (rn pfx) loc defD (renBinds rn decls)
      (atts.map (fun a => (rn a.1, a.2.1, a.2.2)))
      (kids.attach.map (fun k => renameNode rn k.1))
decreasing_by
  simp_wf
  have := List.sizeOf_lt_of_mem k.2
  omega

/-- Concrete prefix renaming used to exercise prefix independence: swap
the prefixes a and b, leave everything else alone. -/
def swapAB (s : Str) : Str :=
  if s = gs "a" then gs "b" else if s = gs "b" then gs "a" else s

/-! ### Theorems -/

theorem elemChar_append_colon (p l : Str) : elemChar ':' (p ++ ':' :: l) = true := by
  induction p with
  | nil => simp [elemChar]
  | cons a as ih => by_cases h : a = ':' <;> simp [elemChar, h, ih]

theorem splitFirst_append_colon (p l : Str) (h : elemChar ':' p = false) :
    splitFirst ':' (p ++ ':' :: l) = (p, some l) := by
  induction p with
  | nil => simp [splitFirst]
  | cons a as ih =>
    by_cases ha : a = ':'
    · simp [elemChar, ha] at h
    · have h' : elemChar ':' as = false := by simpa [elemChar, ha] using h
      simp [splitFirst, ha, ih h']

/-- C1: a prefixed descriptor name p:local matches an element identity iff
the context defines p, its URI equals the identity URI, and the local
names agree; an unprefixed name matches iff the local names agree and the
identity URI equals the default-namespace entry when the context has one,
and is empty otherwise. -/
theorem C1_matchesField_resolution :
    (∀ (ctx : List (Str × Str)) (p l eL eNS : Str), elemChar ':' p = false →
      (matchesField ctx (p ++ ':' :: l) eL eNS = true ↔
        (lookupNs ctx p = some eNS ∧ l = eL))) ∧
    (∀ (ctx : List (Str × Str)) (t eL eNS : Str), elemChar ':' t = false →
      (matchesField ctx t eL eNS = true ↔
        (t = eL ∧ ((∃ d, lookupNs ctx [] = some d ∧ eNS = d) ∨
          (lookupNs ctx [] = none ∧ eNS = []))))) := by
  constructor
  · intro ctx p l eL eNS hp
    unfold matchesField
    rw [elemChar_append_colon, splitFirst_append_colon p l hp]
    cases hl : lookupNs ctx p with
    | none => simp [hl]
    | some u =>
      simp only [if_true, hl, Bool.and_eq_true, decide_eq_true_eq, Option.some.injEq,
        Option.getD_some]
      tauto
  · intro ctx t eL eNS ht
    unfold matchesField
    rw [ht]
    by_cases hte : t = eL
    · subst hte
      cases hl : lookupNs ctx [] with
      | none => simp [hl, eq_comm]
      | some d => simp [hl, eq_comm]
    · simp [hte]

/-- Witness for C1 at the concrete scenario of the spec. -/
theorem C1_matchesField_resolution_witness :
    matchesField [(gs "ns1", gs "NS_P")] (gs "ns1:bio") (gs "bio") (gs "NS_P") = true ∧
    matchesField [(gs "", gs "NS_U")] (gs "name") (gs "name") (gs "NS_U") = true := by
  constructor
  · exact (C1_matchesField_resolution.1 [(gs "ns1", gs "NS_P")] (gs "ns1") (gs "bio")
      (gs "bio") (gs "NS_P") (by decide)).mpr ⟨rfl, rfl⟩
  · exact (C1_matchesField_resolution.2 [(gs "", gs "NS_U")] (gs "name") (gs "name")
      (gs "NS_U") (by decide)).mpr ⟨rfl, Or.inl ⟨gs "NS_U", rfl, rfl⟩⟩

/-- C3: a descriptor whose explicit prefix is not a key of the namespace
context matches no element and no attribute, whatever the identity is. -/
theorem C3_unknown_pfx_inert :
    ∀ (ctx : List (Str × Str)) (p l eL eNS : Str) (a : Attr), elemChar ':' p = false →
      lookupNs ctx p = none →
      matchesField ctx (p ++ ':' :: l) eL eNS = false ∧
      matchesAttribute ctx (p ++ ':' :: l) a = false := by
  intro ctx p l eL eNS a hp hn
  unfold matchesField matchesAttribute
  constructor <;>
    simp [elemChar_append_colon, splitFirst_append_colon p l hp, hn]

/-- Witness for C3 at a concrete undeclared prefix. -/
theorem C3_unknown_pfx_inert_witness :
    matchesField [(gs "a", gs "U")] (gs "zz:bio") (gs "bio") (gs "U") = false ∧
    matchesAttribute [(gs "a", gs "U")] (gs "zz:bio") ⟨⟨gs "U", gs "bio"⟩, gs "v"⟩ = false := by
  exact C3_unknown_pfx_inert [(gs "a", gs "U")] (gs "zz") (gs "bio") (gs "bio") (gs "U")
    ⟨⟨gs "U", gs "bio"⟩, gs "v"⟩ (by decide) (by decide)

/-- C7: an unprefixed attribute descriptor matches an attribute iff the
local names agree, regardless of the attribute namespace and of any
default-namespace entry in the context. -/
theorem C7_attr_no_default_ns :
    ∀ (ctx : List (Str × Str)) (t : Str) (a : Attr), elemChar ':' t = false →
      (matchesAttribute ctx t a = true ↔ t = a.name.loc) := by
  intro ctx t a ht
  unfold matchesAttribute
  simp [ht]

/-- Witness for C7: the context maps the empty prefix, the attribute is in
a different namespace, and the unprefixed descriptor still matches. -/
theorem C7_attr_no_default_ns_witness :
    matchesAttribute [(gs "", gs "NS_U")] (gs "id") ⟨⟨gs "SOMEWHERE", gs "id"⟩, gs "x"⟩ = true := by
  exact (C7_attr_no_default_ns [(gs "", gs "NS_U")] (gs "id")
    ⟨⟨gs "SOMEWHERE", gs "id"⟩, gs "x"⟩ (by decide)).mpr rfl

/-- C6 counterexample: the claim asserts that attribute values are
whitespace-trimmed before coercion, but setFieldValue (the only attribute
coercion path) stores a string attribute verbatim and compares a bool
attribute against the literal true without trimming; at the concrete
inputs below the trimmed results differ from what the code produces. -/
theorem C6_counterexample :
    setFieldValue Ty.str (Val.str []) (gs " x") = .ok (.str (gs " x")) ∧
    trimSpace (gs " x") = gs "x" ∧
    ¬ (gs " x" = gs "x") ∧
    setFieldValue Ty.boolean (Val.boolean false) (gs "true ") = .ok (.boolean false) ∧
    trimSpace (gs "true ") = gs "true" := by
  exact ⟨rfl, by decide, by decide, rfl, by decide⟩

/-- C6 amended: element text is trimmed before coercion for every
primitive kind (string, bool, signed and unsigned integers), but
attribute values are passed to the coercion verbatim, with no trimming. -/
theorem C6_amended_trim_behavior :
    (∀ (v : Val) (fin : Option Str) (s : Str) (nm : XName) (rest : List Token),
      decodeString v fin (.chardata s :: .endE nm :: rest) =
        (.ok (.str (trimSpace s)), rest)) ∧
    (∀ (v : Val) (fin : Option Str) (s : Str) (nm : XName) (rest : List Token),
      decodeBool v fin (.chardata s :: .endE nm :: rest) =
        (.ok (.boolean (decide (trimSpace s = gs "true"))), rest)) ∧
    (∀ (b : Nat) (v : Val) (fin : Option Str) (s : Str) (nm : XName) (rest : List Token),
      decodeInt b v fin (.chardata s :: .endE nm :: rest) =
        ((match parseInt64 (trimSpace s) with
          | none => .error .parseIntE
          | some n => .ok (.intV (truncInt b n))), rest)) ∧
    (∀ (b : Nat) (v : Val) (fin : Option Str) (s : Str) (nm : XName) (rest : List Token),
      decodeUint b v fin (.chardata s :: .endE nm :: rest) =
        ((match parseUint64 (trimSpace s) with
          | none => .error .parseUintE
          | some n => .ok (.uintV (truncUint b n))), rest)) ∧
    (∀ (v : Val) (s : Str), setFieldValue .str v s = .ok (.str s)) ∧
    (∀ (v : Val) (s : Str),
      setFieldValue .boolean v s = .ok (.boolean (decide (s = gs "true")))) ∧
    (∀ (b : Nat) (v : Val) (s : Str),
      setFieldValue (.intT b) v s =
        (match parseInt64 s with
          | none => .error .parseIntE
          | some n => .ok (.intV (truncInt b n)))) ∧
    (∀ (b : Nat) (v : Val) (s : Str),
      setFieldValue (.uintT b) v s =
        (match parseUint64 s with
          | none => .error .parseUintE
          | some n => .ok (.uintV (truncUint b n)))) := by
  refine ⟨fun v fin s nm rest => ?_, fun v fin s nm rest => ?_,
    fun b v fin s nm rest => ?_, fun b v fin s nm rest => ?_,
    fun v s => rfl, fun v s => rfl, fun b v s => rfl, fun b v s => rfl⟩
  · simp [decodeString, decodeStrAux]
  · simp [decodeBool, decodeBoolAux]
  · simp only [decodeInt, decodeIntAux, List.nil_append]
    cases parseInt64 (trimSpace s) <;> rfl
  · simp only [decodeUint, decodeUintAux, List.nil_append]
    cases parseUint64 (trimSpace s) <;> rfl

/-- C8: a base-10 text that ParseInt or ParseUint accepts as a 64-bit
value but that exceeds the declared bit width of the narrower target is
not rejected: SetInt and SetUint silently truncate it to the target
width, on the element path and on the attribute path alike. -/
theorem C8_int_truncation :
    (∀ (w : Nat) (s : Str) (n : Int) (v : Val) (fin : Option Str) (nm : XName)
        (rest : List Token),
      (w = 8 ∨ w = 16 ∨ w = 32) →
      parseInt64 (trimSpace s) = some n →
      (n < -((2 : Int) ^ (w - 1)) ∨ (2 : Int) ^ (w - 1) ≤ n) →
      decodeInt w v fin (.chardata s :: .endE nm :: rest) =
        (.ok (.intV (truncInt w n)), rest)) ∧
    (∀ (w : Nat) (s : Str) (n : Nat) (v : Val) (fin : Option Str) (nm : XName)
        (rest : List Token),
      (w = 8 ∨ w = 16 ∨ w = 32) →
      parseUint64 (trimSpace s) = some n →
      2 ^ w ≤ n →
      decodeUint w v fin (.chardata s :: .endE nm :: rest) =
        (.ok (.uintV (truncUint w n)), rest)) ∧
    (∀ (w : Nat) (s : Str) (n : Int) (v : Val),
      (w = 8 ∨ w = 16 ∨ w = 32) →
      parseInt64 s = some n →
      (n < -((2 : Int) ^ (w - 1)) ∨ (2 : Int) ^ (w - 1) ≤ n) →
      setFieldValue (.intT w) v s = .ok (.intV (truncInt w n))) ∧
    (∀ (w : Nat) (s : Str) (n : Nat) (v : Val),
      (w = 8 ∨ w = 16 ∨ w = 32) →
      parseUint64 s = some n →
      2 ^ w ≤ n →
      setFieldValue (.uintT w) v s = .ok (.uintV (truncUint w n))) := by
  refine ⟨fun w s n v fin nm rest _ hp _ => ?_, fun w s n v fin nm rest _ hp _ => ?_,
    fun w s n v _ hp _ => ?_, fun w s n v _ hp _ => ?_⟩
  · simp [decodeInt, decodeIntAux, hp]
  · simp [decodeUint, decodeUintAux, hp]
  · simp [setFieldValue, hp]
  · simp [setFieldValue, hp]

/-- Witness for C8: the text 200 decoded into an int8 field succeeds and
stores -56; the text 300 decoded into a uint8 field succeeds and stores
44. -/
theorem C8_int_truncation_witness :
    decodeInt 8 (.intV 0) none [.chardata (gs "200"), .endE ⟨[], gs "n"⟩] =
      (.ok (.intV (-56)), []) ∧
    decodeUint 8 (.uintV 0) none [.chardata (gs "300"), .endE ⟨[], gs "n"⟩] =
      (.ok (.uintV 44), []) := by
  constructor
  · have h := C8_int_truncation.1 8 (gs "200") 200 (.intV 0) none ⟨[], gs "n"⟩ []
      (Or.inl rfl) (by decide) (Or.inr (by norm_num))
    rw [h]
    have ht : truncInt 8 200 = -56 := by decide
    rw [ht]
  · have h := C8_int_truncation.2.1 8 (gs "300") 300 (.uintV 0) none ⟨[], gs "n"⟩ []
      (Or.inl rfl) (by decide) (by norm_num)
    rw [h]
    have ht : truncUint 8 300 = 44 := by decide
    rw [ht]

theorem attrPass2_nil_atts (ctx : List (Str × Str)) (anyIdx : Option Nat) :
    ∀ (l : List (Nat × (Str × Str × Ty))) (vs : List Val) (matched : List Nat),
      attrPass2 ctx [] anyIdx l vs matched = .ok (vs, matched) := by
  intro l
  induction l with
  | nil => intro vs matched; rfl
  | cons hd tl ih =>
    intro vs matched
    obtain ⟨i, f⟩ := hd
    simp only [attrPass2, List.enum_nil, List.find?_nil]
    split_ifs <;> simp [ih]

theorem decodeAttributes_nil (ctx : List (Str × Str)) (fs : List (Str × Str × Ty))
    (vs : List Val) : decodeAttributes ctx fs vs [] = .ok vs := by
  simp only [decodeAttributes, attrPass2_nil_atts]
  cases h : findIdxP (fun f => !decide (f.2.1 = []) && containsSub (gs ",any,attr") f.2.1) fs with
  | none => simp [h]
  | some j => simp [h]

/-- C4 counterexample: the token stream ends (clean end-of-stream) right
after the root start element, with the frame still open, yet the decode
returns success with the untouched zero record instead of the fatal
error the claim requires. -/
theorem C4_counterexample :
    topDecode [] 5 (Ty.structT [(gs "Name", gs "name", Ty.str)])
      (Val.structV [Val.str []]) none [.start ⟨gs "", gs "user"⟩ []] =
      (.ok (.structV [.str []]), []) := rfl

/-- C4 amended: a record-decode frame terminates on the end element at
its own depth or on end-of-stream.  A clean io.EOF inside an open frame
breaks the frame loop and the decode returns success with the fields
decoded so far (likewise for the primitive string loop); a stream error
other than io.EOF is propagated as a fatal error — with the real
tokenizer, which reports truncated input inside an open element as such
an error, premature physical end of input is therefore fatal.  Clean
end-of-stream before the root start element is also a non-error. -/
theorem C4_amended_eof_handling :
    (∀ (ctx : List (Str × Str)) (fs : List (Str × Str × Ty)) (vs : List Val)
        (nm : XName) (f : Nat),
      decodeStruct ctx (f + 2) fs vs nm [] none [] =
        (.ok (setXMLNameF fs vs nm), [])) ∧
    (∀ (ctx : List (Str × Str)) (fs : List (Str × Str × Ty)) (vs : List Val)
        (nm : XName) (f : Nat) (e : Str),
      decodeStruct ctx (f + 2) fs vs nm [] (some e) [] = (.error (.streamE e), [])) ∧
    (∀ v : Val, decodeString v none [] = (.ok v, [])) ∧
    (∀ (v : Val) (e : Str), decodeString v (some e) [] = (.error (.streamE e), [])) ∧
    (∀ (ctx : List (Str × Str)) (f : Nat) (ty : Ty) (v : Val),
      topDecode ctx f ty v none [] = (.ok v, [])) := by
  refine ⟨fun ctx fs vs nm f => ?_, fun ctx fs vs nm f e => ?_,
    fun v => rfl, fun v e => rfl, fun ctx f ty v => rfl⟩
  · simp only [decodeStruct, run, decodeAttributes_nil]
    cases hin : findInnerXMLIdx fs <;> simp [hin, collectInner]
  · simp only [decodeStruct, run, decodeAttributes_nil]
    cases hin : findInnerXMLIdx fs <;> simp [hin, collectInner]

theorem findIdxP_some {p : Str × Str × Ty → Bool} :
    ∀ {l : List (Str × Str × Ty)} {i : Nat}, findIdxP p l = some i →
      ∃ x, l.get? i = some x ∧ p x = true := by
  intro l
  induction l with
  | nil => intro i h; simp [findIdxP] at h
  | cons f r ih =>
    intro i h
    simp only [findIdxP] at h
    by_cases hf : p f
    · rw [if_pos hf] at h
      obtain rfl : (0 : Nat) = i := Option.some.inj h
      exact ⟨f, rfl, hf⟩
    · rw [if_neg hf] at h
      obtain ⟨j, hj, hji⟩ := Option.map_eq_some'.mp h
      subst hji
      exact ih hj

/-- C5 counterexample: a record declaring a CData field before a CharData
field; contrary to the claim, the accumulated text goes to the CharData
field and the earlier-declared CData field stays empty. -/
theorem C5_counterexample :
    decodeStruct [] 5 [(gs "A", gs ",cdata", Ty.str), (gs "B", gs ",chardata", Ty.str)]
      [Val.str [], Val.str []] ⟨[], gs "x"⟩ [] none
      [.chardata (gs "hi"), .endE ⟨[], gs "x"⟩] =
      (.ok [Val.str [], Val.str (gs "hi")], []) := rfl

/-- C5 amended: when a record declares both a CharData and a CData field,
exactly one receives the accumulated text at the end of the frame, and it
is always the CharData field, regardless of declaration order; the CData
field receives text only when no CharData field exists. -/
theorem C5_amended_chardata_priority :
    ∀ (ctx : List (Str × Str)) (fs : List (Str × Str × Ty)) (vs : List Val) (nm enm : XName)
      (f i j : Nat) (s a : Str),
      findXMLNameIdx fs = none →
      findInnerXMLIdx fs = none →
      findChardataIdx fs = some i →
      findCDataIdx fs = some j →
      valAt vs i = .str a →
      s ≠ [] →
      decodeStruct ctx (f + 3) fs vs nm [] none [.chardata s, .endE enm] =
        (.ok (vs.set i (.str (trimSpace s))), []) ∧
      i ≠ j ∧
      (vs.set i (.str (trimSpace s))).get? j = vs.get? j := by
  intro ctx fs vs nm enm f i j s a hxm hin hch hcd hstr hs
  have hij : i ≠ j := by
    intro he
    obtain ⟨x, hx, hpx⟩ := findIdxP_some hch
    obtain ⟨y, hy, hpy⟩ := findIdxP_some hcd
    rw [he, hy] at hx
    obtain rfl : y = x := Option.some.inj hx
    simp only [Bool.and_eq_true, Bool.not_eq_true'] at hpx hpy
    rw [hpy.2] at hpx
    exact Bool.false_ne_true hpx.2
  have hset : (vs.set i (Val.str (trimSpace s))).get? j = vs.get? j := by
    simp [List.getElem?_set_ne hij]
  refine ⟨?_, hij, hset⟩
  simp only [decodeStruct, run, decodeAttributes_nil, setXMLNameF, hxm, hin, hch, hcd,
    Option.isSome_some, Bool.true_or, List.nil_append, assignChardata, assignComment,
    setStrAt, hstr]
  simp [hs]

/-- Witness for the amended C5 at the concrete two-field record of the
counterexample: the CharData field at index 1 receives the text and the
CData field at index 0 is untouched. -/
theorem C5_amended_chardata_priority_witness :
    decodeStruct [] 5 [(gs "A", gs ",cdata", Ty.str), (gs "B", gs ",chardata", Ty.str)]
      [Val.str [], Val.str []] ⟨[], gs "x"⟩ [] none
      [.chardata (gs "hi"), .endE ⟨[], gs "x"⟩] =
      (.ok ([Val.str [], Val.str []].set 1 (.str (trimSpace (gs "hi")))), []) ∧
    (1 : Nat) ≠ 0 ∧
    ([Val.str [], Val.str []].set 1 (.str (trimSpace (gs "hi")))).get? 0 =
      [Val.str [], Val.str []].get? 0 :=
  C5_amended_chardata_priority []
    [(gs "A", gs ",cdata", Ty.str), (gs "B", gs ",chardata", Ty.str)]
    [Val.str [], Val.str []] ⟨[], gs "x"⟩ ⟨[], gs "x"⟩ 2 1 0 (gs "hi") []
    rfl rfl rfl rfl rfl (by decide)

theorem ffwtGo_attr_excluded (ctx : List (Str × Str)) (eL eNS : Str) :
    ∀ (l : List (Str × Str × Ty)) (k i : Nat) (t : Str),
      ffwtGo ctx eL eNS l k = some (i, t) →
      k ≤ i ∧ ∃ x, l.get? (i - k) = some x ∧ containsSub (gs "attr") x.2.1 = false := by
  intro l
  induction l with
  | nil => intro k i t h; simp [ffwtGo] at h
  | cons f r ih =>
    intro k i t h
    simp only [ffwtGo] at h
    split_ifs at h
    all_goals
      first
      | (simp only [Option.some.injEq, Prod.mk.injEq] at h
         obtain ⟨rfl, rfl⟩ := h
         rename_i hc1 hc2 hc3 hc4 hc5
         refine ⟨le_refl _, f, ?_, Bool.eq_false_iff.mpr (not_or.mp hc3).1⟩
         rw [Nat.sub_self]
         rfl)
      | (obtain ⟨hk, x, hx, hattr⟩ := ih (k + 1) i t h
         exact ⟨by omega, x,
           by rw [show i - k = (i - (k + 1)) + 1 by omega]; exact hx, hattr⟩)

theorem fapfGo_attr_excluded (ctx : List (Str × Str)) (eL eNS : Str) :
    ∀ (l : List (Str × Str × Ty)) (k : Nat) (m : Nat × Str),
      m ∈ fapfGo ctx eL eNS l k →
      k ≤ m.1 ∧ ∃ x, l.get? (m.1 - k) = some x ∧ containsSub (gs "attr") x.2.1 = false := by
  intro l
  induction l with
  | nil => intro k m h; simp [fapfGo] at h
  | cons f r ih =>
    intro k m h
    simp only [fapfGo] at h
    split_ifs at h
    all_goals
      first
      | (rcases List.mem_cons.mp h with hm | hm
         · subst hm
           rename_i hc1 hc2 hc3 hc4 hc5
           refine ⟨le_refl _, f, ?_, Bool.eq_false_iff.mpr (not_or.mp hc3).1⟩
           show (f :: r).get? (k - k) = some f
           rw [Nat.sub_self]
           rfl
         · obtain ⟨hk, x, hx, hattr⟩ := ih (k + 1) m hm
           exact ⟨by omega, x,
             by rw [show m.1 - k = (m.1 - (k + 1)) + 1 by omega]; exact hx, hattr⟩)
      | (obtain ⟨hk, x, hx, hattr⟩ := ih (k + 1) m h
         exact ⟨by omega, x,
           by rw [show m.1 - k = (m.1 - (k + 1)) + 1 by omega]; exact hx, hattr⟩)

/-- C10 counterexample: the tag xattr,any contains the substring attr,
yet the field is the any-element catch-all and is filled from an
unmatched child element, contradicting the claim that such a field can
never be filled from a child element. -/
theorem C10_counterexample :
    decodeStruct [] 5 [(gs "F", gs "xattr,any", Ty.str)] [Val.str []] ⟨[], gs "x"⟩ [] none
      [.start ⟨[], gs "unknown"⟩ [], .chardata (gs "hi"), .endE ⟨[], gs "unknown"⟩,
        .endE ⟨[], gs "x"⟩] =
      (.ok [.str (gs "hi")], []) ∧
    containsSub (gs "attr") (gs "xattr,any") = true := ⟨rfl, by decide⟩

/-- C10 amended: any field whose full tag contains the substring attr is
excluded from element matching (never returned by findFieldWithTag, never
collected by the path-field scan), and, unless the tag also contains
,any,attr or its first comma segment starts with xmlns, it is matched in
the attribute pass under the name given by the first comma segment of the
tag; however, a tag containing both attr and ,any (without ,any,attr) is
also the any-element catch-all and can still be filled from an unmatched
child element, so the exclusion from child filling is not universal. -/
theorem C10_amended_attr_substring :
    (∀ (ctx : List (Str × Str)) (fs : List (Str × Str × Ty)) (eL eNS : Str) (i : Nat)
        (t : Str),
      findFieldWithTag ctx fs eL eNS = some (i, t) →
      containsSub (gs "attr") (tagAt fs i) = false) ∧
    (∀ (ctx : List (Str × Str)) (fs : List (Str × Str × Ty)) (eL eNS : Str)
        (m : Nat × Str),
      m ∈ findAllPathFieldsWithPfx ctx fs eL eNS →
      containsSub (gs "attr") (tagAt fs m.1) = false) ∧
    (∀ (ctx : List (Str × Str)) (fn tag : Str) (ty : Ty) (v : Val) (a : Attr),
      containsSub (gs "attr") tag = true →
      containsSub (gs ",any,attr") tag = false →
      isPfxOf (gs "xmlns") ((splitChar ',' tag).headD []) = false →
      tag ≠ [] →
      decodeAttributes ctx [(fn, tag, ty)] [v] [a] =
        (if matchesAttribute ctx ((splitChar ',' tag).headD []) a = true then
          (setFieldValue ty v a.val).map (fun w => [w])
        else .ok [v])) := by
  refine ⟨fun ctx fs eL eNS i t h => ?_, fun ctx fs eL eNS m h => ?_,
    fun ctx fn tag ty v a h1 h2 h3 h4 => ?_⟩
  · obtain ⟨-, x, hx, hattr⟩ := ffwtGo_attr_excluded ctx eL eNS fs 0 i t h
    rw [Nat.sub_zero] at hx
    simp only [List.get?_eq_getElem?] at hx
    simp [tagAt, hx, hattr]
  · obtain ⟨-, x, hx, hattr⟩ := fapfGo_attr_excluded ctx eL eNS fs 0 m h
    rw [Nat.sub_zero] at hx
    simp only [List.get?_eq_getElem?] at hx
    simp [tagAt, hx, hattr]
  · have hfind :
        findIdxP (fun f => !decide (f.2.1 = []) && containsSub (gs ",any,attr") f.2.1)
          [(fn, tag, ty)] = none := by
      simp [findIdxP, h2]
    have henum : ([(fn, tag, ty)] : List (Str × Str × Ty)).enum = [(0, (fn, tag, ty))] := rfl
    have henumA : ([a] : List Attr).enum = [((0 : Nat), a)] := rfl
    simp only [decodeAttributes, hfind, henum, henumA]
    simp only [attrPass2, henumA]
    rw [if_neg (by simp : ¬ (none : Option Nat) = some 0)]
    rw [if_neg (by simp [h1, h4] :
      ¬ (tag = [] ∨ (!containsSub (gs "attr") tag) = true))]
    rw [if_neg (by simp [h2] : ¬ containsSub (gs ",any,attr") tag = true)]
    have h3x : ¬ isPfxOf (gs "xmlns") ((splitChar ',' tag).headD []) = true := by
      intro hc; rw [hc] at h3; exact Bool.noConfusion h3
    rw [if_neg h3x]
    cases hm : matchesAttribute ctx ((splitChar ',' tag).headD []) a with
    | false =>
      rw [List.find?_cons_of_neg _ (by
        show ¬ matchesAttribute ctx ((splitChar ',' tag).headD []) a = true
        intro hc; rw [hc] at hm; exact Bool.noConfusion hm)]
      simp [hm, attrPass2]
    | true =>
      rw [List.find?_cons_of_pos _ (by
        show matchesAttribute ctx ((splitChar ',' tag).headD []) a = true
        exact hm)]
      have hval : valAt [v] 0 = v := rfl
      rw [hval]
      cases hsf : setFieldValue ty v a.val with
      | error e => simp [hsf, hm, Except.map]
      | ok w => simp [hsf, hm, attrPass2, Except.map]

/-- Witness for the amended C10: a matched element field has no attr
substring in its tag, and the field tagged attrition is matched in the
attribute pass under the name attrition. -/
theorem C10_amended_attr_substring_witness :
    containsSub (gs "attr") (tagAt [(gs "A", gs "name", Ty.str)] 0) = false ∧
    decodeAttributes [] [(gs "F", gs "attrition", Ty.str)] [Val.str []]
      [⟨⟨[], gs "attrition"⟩, gs "yes"⟩] =
      (if matchesAttribute [] ((splitChar ',' (gs "attrition")).headD [])
          ⟨⟨[], gs "attrition"⟩, gs "yes"⟩ = true then
        (setFieldValue Ty.str (Val.str []) (gs "yes")).map (fun w => [w])
      else .ok [Val.str []]) := by
  constructor
  · exact C10_amended_attr_substring.1 [] [(gs "A", gs "name", Ty.str)] (gs "name") []
      0 (gs "name") rfl
  · exact C10_amended_attr_substring.2.2 [] (gs "F") (gs "attrition") Ty.str (Val.str [])
      ⟨⟨[], gs "attrition"⟩, gs "yes"⟩ (by decide) (by decide) (by decide) (by decide)

theorem lookupNs_renBinds (rn : Str → Str) (hinj : Function.Injective rn)
    (binds : List (Str × Str)) (p : Str) :
    lookupNs (renBinds rn binds) (rn p) = lookupNs binds p := by
  induction binds with
  | nil => rfl
  | cons d r ih =>
    obtain ⟨k, u⟩ := d
    simp only [renBinds, List.map_cons, lookupNs]
    by_cases hk : k = p
    · simp [hk]
    · have hrk : ¬ rn k = rn p := fun hc => hk (hinj hc)
      rw [if_neg hrk, if_neg hk]
      exact ih

theorem resolveQ_ren (rn : Str → Str) (hinj : Function.Injective rn) (h0 : rn [] = [])
    (bs : List (Str × Str)) (d pfx loc : Str)
    (h : pfx = [] ∨ (lookupNs bs pfx).isSome = true) :
    resolveQ d (renBinds rn bs) (rn pfx) loc = resolveQ d bs pfx loc := by
  by_cases hp : pfx = []
  · subst hp; rw [h0]; rfl
  · have hrp : ¬ rn pfx = [] := fun hc => hp (hinj (hc.trans h0.symm))
    unfold resolveQ
    rw [if_neg hp, if_neg hrp, lookupNs_renBinds rn hinj]
    rcases h with h | h
    · exact absurd h hp
    · obtain ⟨u, hu⟩ := Option.isSome_iff_exists.mp h
      rw [hu]
      rfl

theorem resolveAtt_ren (rn : Str → Str) (hinj : Function.Injective rn) (h0 : rn [] = [])
    (bs : List (Str × Str)) (a : Str × Str × Str)
    (h : a.1 = [] ∨ (lookupNs bs a.1).isSome = true) :
    resolveAtt (renBinds rn bs) (rn a.1, a.2.1, a.2.2) = resolveAtt bs a := by
  by_cases hp : a.1 = []
  · unfold resolveAtt
    rw [hp, h0]
    simp [hp]
  · have hrp : ¬ rn a.1 = [] := fun hc => hp (hinj (hc.trans h0.symm))
    unfold resolveAtt
    rw [if_neg hp, if_neg hrp, lookupNs_renBinds rn hinj]
    rcases h with h | h
    · exact absurd h hp
    · obtain ⟨u, hu⟩ := Option.isSome_iff_exists.mp h
      rw [hu]
      rfl

theorem tokNode_rename (rn : Str → Str) (hinj : Function.Injective rn) (h0 : rn [] = []) :
    ∀ (fuel : Nat) (binds : List (Str × Str)) (dn : Str) (n : XNode),
      wfNode fuel binds n = true →
      tokNode fuel dn (renBinds rn binds) (renameNode rn n) = tokNode fuel dn binds n := by
  intro fuel
  induction fuel with
  | zero =>
    intro binds dn n hwf
    cases n with
    | txt s => simp [renameNode, tokNode]
    | com s => simp [renameNode, tokNode]
    | el pfx loc defD decls atts kids => simp [wfNode] at hwf
  | succ f ih =>
    intro binds dn n hwf
    cases n with
    | txt s => simp [renameNode, tokNode]
    | com s => simp [renameNode, tokNode]
    | el pfx loc defD decls atts kids =>
      simp only [wfNode, Bool.and_eq_true, List.all_eq_true] at hwf
      obtain ⟨⟨hpfx, hatts⟩, hkids⟩ := hwf
      have hbs : renBinds rn decls ++ renBinds rn binds = renBinds rn (decls ++ binds) :=
        (List.map_append _ _ _).symm
      have hpfx2 : pfx = [] ∨ (lookupNs (decls ++ binds) pfx).isSome = true := by
        rcases (Bool.or_eq_true _ _).mp hpfx with h | h
        · exact Or.inl (by simpa using h)
        · exact Or.inr h
      have hattseq :
          (atts.map (fun a => (rn a.1, a.2.1, a.2.2))).map
            (resolveAtt (renBinds rn (decls ++ binds))) =
          atts.map (resolveAtt (decls ++ binds)) := by
        rw [List.map_map]
        refine List.map_congr_left (fun a ha => ?_)
        have h1 := hatts a ha
        have h2 : a.1 = [] ∨ (lookupNs (decls ++ binds) a.1).isSome = true := by
          rcases (Bool.or_eq_true _ _).mp h1 with h | h
          · exact Or.inl (by simpa using h)
          · exact Or.inr h
        exact resolveAtt_ren rn hinj h0 _ a h2
      have hkidseq :
          (kids.attach.map (fun k => renameNode rn k.1)).map
            (tokNode f (defD.getD dn) (renBinds rn (decls ++ binds))) =
          kids.map (tokNode f (defD.getD dn) (decls ++ binds)) := by
        rw [List.map_map]
        have hstep : kids.attach.map
            ((tokNode f (defD.getD dn) (renBinds rn (decls ++ binds))) ∘
              (fun k => renameNode rn k.1)) =
            kids.attach.map (fun k => tokNode f (defD.getD dn) (decls ++ binds) k.1) :=
          List.map_congr_left (fun k _ => ih (decls ++ binds) (defD.getD dn) k.1
            (hkids k.1 k.2))
        rw [hstep]
        exact List.attach_map_val kids (tokNode f (defD.getD dn) (decls ++ binds))
      simp only [renameNode, tokNode, hbs, hattseq, hkidseq,
        resolveQ_ren rn hinj h0 _ _ _ _ hpfx2]

/-- C2: decoding depends only on resolved identities, never on literal
prefixes: for any injective renaming of nonempty prefixes applied to a
namespace-well-formed document (declarations and use sites alike), the
tokenizer output, and hence the result of decoding with any namespace
context into any record type, is unchanged. -/
theorem C2_decode_pfx_independence :
    ∀ (rn : Str → Str), Function.Injective rn → rn [] = [] →
    ∀ (tf : Nat) (d : XNode), wfNode tf [] d = true →
    ∀ (ctx : List (Str × Str)) (df : Nat) (ty : Ty) (v : Val),
      topDecode ctx df ty v none (tokNode tf [] [] (renameNode rn d)) =
        topDecode ctx df ty v none (tokNode tf [] [] d) := by
  intro rn hinj h0 tf d hwf ctx df ty v
  have h := tokNode_rename rn hinj h0 tf [] [] d hwf
  rw [show renBinds rn ([] : List (Str × Str)) = [] from rfl] at h
  rw [h]

theorem swapAB_involutive : ∀ s, swapAB (swapAB s) = s := by
  intro s
  by_cases h1 : s = gs "a"
  · subst h1; decide
  · by_cases h2 : s = gs "b"
    · subst h2; decide
    · simp [swapAB, h1, h2]

theorem swapAB_injective : Function.Injective swapAB :=
  Function.LeftInverse.injective swapAB_involutive

/-- Witness for C2: a concrete well-formed document whose only prefix a
is swapped to b; tokenizing and decoding both variants with the same
context and record type gives the same result. -/
theorem C2_decode_pfx_independence_witness :
    topDecode [(gs "p", gs "U")] 8 (Ty.structT [(gs "F", gs "p:x", Ty.str)])
      (Val.structV [Val.str []]) none
      (tokNode 5 [] []
        (renameNode swapAB
          (XNode.el [] (gs "root") none [(gs "a", gs "U")] []
            [XNode.el (gs "a") (gs "x") none [] [] [XNode.txt (gs "hi")]]))) =
    topDecode [(gs "p", gs "U")] 8 (Ty.structT [(gs "F", gs "p:x", Ty.str)])
      (Val.structV [Val.str []]) none
      (tokNode 5 [] []
        (XNode.el [] (gs "root") none [(gs "a", gs "U")] []
          [XNode.el (gs "a") (gs "x") none [] [] [XNode.txt (gs "hi")]])) :=
  C2_decode_pfx_independence swapAB swapAB_injective (by decide) 5
    (XNode.el [] (gs "root") none [(gs "a", gs "U")] []
      [XNode.el (gs "a") (gs "x") none [] [] [XNode.txt (gs "hi")]])
    (by decide) [(gs "p", gs "U")] 8 (Ty.structT [(gs "F", gs "p:x", Ty.str)])
    (Val.structV [Val.str []])

theorem get?_set_valAt_self (vs : List Val) (i : Nat) :
    (vs.set i (valAt vs i)).get? i = vs.get? i := by
  simp only [List.get?_eq_getElem?, List.getElem?_set_self']
  cases h : vs[i]? with
  | none => rfl
  | some x =>
    have hv : valAt vs i = x := by simp [valAt, List.get?_eq_getElem?, h]
    simp [hv]

theorem setStrAt_preserve {vs vsA : List Val} {j : Nat} {s : Str} {i : Nat}
    (hne : j ≠ i) (h : setStrAt vs j s = .ok vsA) : vsA.get? i = vs.get? i := by
  unfold setStrAt at h
  cases hv : valAt vs j with
  | str a =>
    rw [hv] at h
    obtain rfl : vs.set j (Val.str s) = vsA := Except.ok.inj h
    simp [List.get?_eq_getElem?, List.getElem?_set_ne hne]
  | boolean b => rw [hv] at h; cases h
  | intV a => rw [hv] at h; cases h
  | uintV a => rw [hv] at h; cases h
  | nameV a => rw [hv] at h; cases h
  | attrList a => rw [hv] at h; cases h
  | structV a => rw [hv] at h; cases h
  | ptrV a => rw [hv] at h; cases h
  | sliceV a => rw [hv] at h; cases h

theorem assignChardata_preserve {chIdx cdIdx : Option Nat} {acc : Str} {vs vsA : List Val}
    {i : Nat} (hch : chIdx ≠ some i) (hcd : cdIdx ≠ some i)
    (h : assignChardata chIdx cdIdx acc vs = .ok vsA) : vsA.get? i = vs.get? i := by
  unfold assignChardata at h
  by_cases ha : acc = []
  · rw [if_pos ha] at h
    obtain rfl : vs = vsA := Except.ok.inj h
    rfl
  · rw [if_neg ha] at h
    cases chIdx with
    | some j => exact setStrAt_preserve (fun hji => hch (by rw [hji])) h
    | none =>
      cases cdIdx with
      | some j => exact setStrAt_preserve (fun hji => hcd (by rw [hji])) h
      | none =>
        obtain rfl : vs = vsA := Except.ok.inj h
        rfl

theorem assignComment_preserve {comIdx : Option Nat} {acc : Str} {vs vsA : List Val}
    {i : Nat} (hcom : comIdx ≠ some i)
    (h : assignComment comIdx acc vs = .ok vsA) : vsA.get? i = vs.get? i := by
  unfold assignComment at h
  by_cases ha : acc = []
  · rw [if_pos ha] at h
    obtain rfl : vs = vsA := Except.ok.inj h
    rfl
  · rw [if_neg ha] at h
    cases comIdx with
    | some j => exact setStrAt_preserve (fun hji => hcom (by rw [hji])) h
    | none =>
      obtain rfl : vs = vsA := Except.ok.inj h
      rfl

theorem run_elemR_nameT (ctx : List (Str × Str)) (fuel : Nat) (v : Val) (nm : XName)
    (atts : List Attr) (fin : Option Str) (toks : List Token) (w : Val) (ts : List Token)
    (h : run ctx fuel (.elemR .nameT v nm atts) fin toks = (.ok (.one w), ts)) : w = v := by
  cases fuel with
  | zero => simp [run] at h
  | succ f =>
    simp only [run] at h
    rcases hr : run ctx f (.structR [] [] nm atts) fin toks with ⟨res, ts0⟩
    rw [hr] at h
    cases res with
    | ok r =>
      simp only [Prod.mk.injEq, Except.ok.injEq, Resp.one.injEq] at h
      exact h.1.symm
    | error e => simp at h

theorem foldMembers_preserve (ctx : List (Str × Str))
    (stepE : Ty → Val → XName → List Attr → List Token → Except Err Val × List Token)
    (fs : List (Str × Str × Ty)) (cnm : XName) (catts : List Attr) (i : Nat)
    (hty : tyAt fs i = .nameT)
    (hstep : ∀ (v : Val) (tk : List Token) (w : Val) (tk' : List Token),
      stepE .nameT v cnm catts tk = (.ok w, tk') → w = v) :
    ∀ (members : List ((Nat × Str) × Bool)) (vs : List Val) (tk : List Token)
      (ms : List ((Nat × Str) × Bool)) (vs' : List Val) (anyB : Bool)
      (deep : List (Nat × Str)) (tk' : List Token),
      foldMembers ctx stepE fs cnm catts members vs tk = (.ok (ms, vs', anyB, deep), tk') →
      vs'.get? i = vs.get? i := by
  intro members
  induction members with
  | nil =>
    intro vs tk ms vs' anyB deep tk' h
    simp only [foldMembers, Prod.mk.injEq, Except.ok.injEq] at h
    rw [← h.1.2.1]
  | cons hd rest ih =>
    obtain ⟨m, fnd⟩ := hd
    intro vs tk ms vs' anyB deep tk' h
    simp only [foldMembers] at h
    cases fnd with
    | true =>
      simp only [if_true] at h
      rcases hrec : foldMembers ctx stepE fs cnm catts rest vs tk with ⟨res, tkr⟩
      rw [hrec] at h
      try dsimp only at h
      cases res with
      | error e => simp at h
      | ok q =>
        obtain ⟨ms0, vs0, any0, deep0⟩ := q
        simp only [Prod.mk.injEq, Except.ok.injEq] at h
        rw [← h.1.2.1]
        exact ih vs tk ms0 vs0 any0 deep0 tkr hrec
    | false =>
      simp only [Bool.false_eq_true, if_false] at h
      by_cases hlen : (splitChar '>' m.2).length < 2
      · rw [if_pos hlen] at h
        rcases hrec : foldMembers ctx stepE fs cnm catts rest vs tk with ⟨res, tkr⟩
        rw [hrec] at h
        try dsimp only at h
        cases res with
        | error e => simp at h
        | ok q =>
          obtain ⟨ms0, vs0, any0, deep0⟩ := q
          simp only [Prod.mk.injEq, Except.ok.injEq] at h
          rw [← h.1.2.1]
          exact ih vs tk ms0 vs0 any0 deep0 tkr hrec
      · rw [if_neg hlen] at h
        by_cases hmf :
            matchesField ctx (((splitChar '>' m.2).get? 1).getD []) cnm.loc cnm.space = true
        · rw [if_pos hmf] at h
          by_cases hlen2 : (splitChar '>' m.2).length = 2
          · rw [if_pos hlen2] at h
            split at h
            next w tk1 hst =>
              split at h
              next ms0 vs0 any0 deep0 tkr hrec =>
                simp only [Prod.mk.injEq, Except.ok.injEq] at h
                rw [← h.1.2.1]
                rw [ih (vs.set m.1 w) tk1 ms0 vs0 any0 deep0 tkr hrec]
                by_cases hmi : m.1 = i
                · rw [hmi] at hst
                  rw [hty] at hst
                  rw [hstep (valAt vs i) tk w tk1 hst, hmi]
                  exact get?_set_valAt_self vs i
                · simp [List.get?_eq_getElem?, List.getElem?_set_ne hmi]
              next e tkr hrec => simp at h
            next e tk1 hst => simp at h
          · rw [if_neg hlen2] at h
            rcases hrec : foldMembers ctx stepE fs cnm catts rest vs tk with ⟨res, tkr⟩
            rw [hrec] at h
            try dsimp only at h
            cases res with
            | error e => simp at h
            | ok q =>
              obtain ⟨ms0, vs0, any0, deep0⟩ := q
              simp only [Prod.mk.injEq, Except.ok.injEq] at h
              rw [← h.1.2.1]
              exact ih vs tk ms0 vs0 any0 deep0 tkr hrec
        · rw [if_neg hmf] at h
          rcases hrec : foldMembers ctx stepE fs cnm catts rest vs tk with ⟨res, tkr⟩
          rw [hrec] at h
          try dsimp only at h
          cases res with
          | error e => simp at h
          | ok q =>
            obtain ⟨ms0, vs0, any0, deep0⟩ := q
            simp only [Prod.mk.injEq, Except.ok.injEq] at h
            rw [← h.1.2.1]
            exact ih vs tk ms0 vs0 any0 deep0 tkr hrec

theorem run_preserve (ctx : List (Str × Str)) (i : Nat) :
    ∀ fuel : Nat,
      (∀ (fs : List (Str × Str × Ty)) (vs : List Val) (anyIdx chIdx cdIdx comIdx : Option Nat)
          (chAcc comAcc : Str) (fin : Option Str) (toks : List Token) (vs' : List Val)
          (ts : List Token),
        tyAt fs i = .nameT → anyIdx ≠ some i → chIdx ≠ some i → cdIdx ≠ some i →
        comIdx ≠ some i →
        run ctx fuel (.loopR fs vs anyIdx chIdx cdIdx comIdx chAcc comAcc) fin toks =
          (.ok (.many vs'), ts) →
        vs'.get? i = vs.get? i) ∧
      (∀ (fs : List (Str × Str × Ty)) (members : List ((Nat × Str) × Bool)) (vs : List Val)
          (fin : Option Str) (toks : List Token) (vs' : List Val) (ts : List Token),
        tyAt fs i = .nameT →
        run ctx fuel (.pathR fs members vs) fin toks = (.ok (.many vs'), ts) →
        vs'.get? i = vs.get? i) := by
  intro fuel
  induction fuel with
  | zero =>
    constructor
    · intro fs vs anyIdx chIdx cdIdx comIdx chAcc comAcc fin toks vs' ts _ _ _ _ _ h
      simp [run] at h
    · intro fs members vs fin toks vs' ts _ h
      simp [run] at h
  | succ f ih =>
    obtain ⟨ihL, ihP⟩ := ih
    constructor
    · intro fs vs anyIdx chIdx cdIdx comIdx chAcc comAcc fin toks vs' ts hty hany hch hcd
        hcom h
      cases toks with
      | nil =>
        simp only [run] at h
        cases fin with
        | some e => simp at h
        | none =>
          simp only [Prod.mk.injEq, Except.ok.injEq, Resp.many.injEq] at h
          rw [← h.1]
      | cons t ts0 =>
        cases t with
        | chardata s =>
          simp only [run] at h
          exact ihL _ _ _ _ _ _ _ _ _ _ _ _ hty hany hch hcd hcom h
        | comment s =>
          simp only [run] at h
          exact ihL _ _ _ _ _ _ _ _ _ _ _ _ hty hany hch hcd hcom h
        | endE nm =>
          simp only [run] at h
          split at h
          next e hA => simp at h
          next vsA hA =>
            split at h
            next e hB => simp at h
            next vsB hB =>
              simp only [Prod.mk.injEq, Except.ok.injEq, Resp.many.injEq] at h
              rw [← h.1]
              rw [assignComment_preserve hcom hB]
              exact assignChardata_preserve hch hcd hA
        | start cnm catts =>
          simp only [run] at h
          by_cases hpe : (findAllPathFieldsWithPfx ctx fs cnm.loc cnm.space).isEmpty = true
          · rw [if_pos hpe] at h
            split at h
            next j tn hff =>
              split at h
              next w ts1 hr =>
                rw [ihL _ _ _ _ _ _ _ _ _ _ _ _ hty hany hch hcd hcom h]
                by_cases hji : j = i
                · subst hji
                  rw [hty] at hr
                  rw [run_elemR_nameT ctx f _ _ _ _ _ _ _ hr]
                  exact get?_set_valAt_self vs j
                · simp [List.get?_eq_getElem?, List.getElem?_set_ne hji]
              next ts1 hnot hr => simp at h
              next e ts1 hr => simp at h
            next hff =>
              split at h
              next j =>
                have hji : j ≠ i := fun hc => hany (by rw [hc])
                split at h
                next w ts1 hr =>
                  rw [ihL _ _ _ _ _ _ _ _ _ _ _ _ hty hany hch hcd hcom h]
                  simp [List.get?_eq_getElem?, List.getElem?_set_ne hji]
                next ts1 hnot hr => simp at h
                next e ts1 hr => simp at h
              next =>
                split at h
                next ts1 hsk =>
                  exact ihL _ _ _ _ _ _ _ _ _ _ _ _ hty hany hch hcd hcom h
                next e hsk => simp at h
          · rw [if_neg hpe] at h
            split at h
            next vs1 ts1 hr =>
              rw [ihL _ _ _ _ _ _ _ _ _ _ _ _ hty hany hch hcd hcom h]
              exact ihP _ _ _ _ _ _ _ hty hr
            next ts1 hnot hr => simp at h
            next e ts1 hr => simp at h
    · intro fs members vs fin toks vs' ts hty h
      cases toks with
      | nil =>
        simp only [run] at h
        cases fin with
        | some e => simp at h
        | none =>
          simp only [Prod.mk.injEq, Except.ok.injEq, Resp.many.injEq] at h
          rw [← h.1]
      | cons t ts0 =>
        cases t with
        | chardata s =>
          simp only [run] at h
          exact ihP _ _ _ _ _ _ _ hty h
        | comment s =>
          simp only [run] at h
          exact ihP _ _ _ _ _ _ _ hty h
        | endE nm =>
          simp only [run] at h
          simp only [Prod.mk.injEq, Except.ok.injEq, Resp.many.injEq] at h
          rw [← h.1]
        | start cnm catts =>
          simp only [run] at h
          split at h
          next e ts1 hfm => simp at h
          next members1 vs1 matchedAny deeper ts1 hfm =>
            have hpres : vs1.get? i = vs.get? i := by
              refine foldMembers_preserve ctx _ fs cnm catts i hty ?_ members vs ts0
                members1 vs1 matchedAny deeper ts1 hfm
              intro v tk w tk' hs
              simp only [] at hs
              split at hs
              next w0 tk0 hr0 =>
                simp only [Prod.mk.injEq, Except.ok.injEq] at hs
                rw [← hs.1]
                exact run_elemR_nameT ctx f _ _ _ _ _ _ _ hr0
              next tk0 hnot hr0 => simp at hs
              next e tk0 hr0 => simp at hs
            by_cases hde : deeper.isEmpty = true
            · rw [if_pos hde] at h
              by_cases hma : matchedAny = true
              · rw [if_pos hma] at h
                rw [ihP _ _ _ _ _ _ _ hty h]
                exact hpres
              · rw [if_neg hma] at h
                split at h
                next ts2 hsk =>
                  rw [ihP _ _ _ _ _ _ _ hty h]
                  exact hpres
                next e hsk => simp at h
            · rw [if_neg hde] at h
              split at h
              next vs2 ts2 hr2 =>
                rw [ihP _ _ _ _ _ _ _ hty h]
                rw [ihP _ _ _ _ _ _ _ hty hr2]
                exact hpres
              next ts2 hnot hr2 => simp at h
              next e ts2 hr2 => simp at h

theorem findIdxP_eq_some_of {p : Str × Str × Ty → Bool} :
    ∀ {l : List (Str × Str × Ty)} {i : Nat} {x : Str × Str × Ty},
      l.get? i = some x → p x = true →
      (∀ j, j < i → ∀ y, l.get? j = some y → p y = false) →
      findIdxP p l = some i := by
  intro l
  induction l with
  | nil => intro i x hx _ _; simp at hx
  | cons f r ih =>
    intro i x hx hpx hfirst
    cases i with
    | zero =>
      obtain rfl : f = x := by simpa using hx
      simp [findIdxP, hpx]
    | succ i0 =>
      have hpf : p f = false := hfirst 0 (Nat.succ_pos _) f rfl
      have hx0 : r.get? i0 = some x := by simpa using hx
      have hfirst0 : ∀ j, j < i0 → ∀ y, r.get? j = some y → p y = false := by
        intro j hj y hy
        exact hfirst (j + 1) (by omega) y (by simpa using hy)
      simp [findIdxP, hpf, ih hx0 hpx hfirst0]

theorem isPfxOf_append_contains :
    ∀ (u v t : Str), isPfxOf (u ++ v) t = true → containsSub v t = true := by
  intro u
  induction u with
  | nil =>
    intro v t h
    cases t with
    | nil => simpa [containsSub] using h
    | cons a as =>
      have hv : isPfxOf v (a :: as) = true := by simpa using h
      simp [containsSub, hv]
  | cons c u' ih =>
    intro v t h
    cases t with
    | nil => simp [isPfxOf] at h
    | cons a as =>
      simp only [List.cons_append, isPfxOf] at h
      by_cases hca : c = a
      · rw [if_pos hca] at h
        have := ih v as h
        simp [containsSub, this]
      · rw [if_neg hca] at h
        cases h

theorem containsSub_append_right :
    ∀ (u v t : Str), containsSub (u ++ v) t = true → containsSub v t = true := by
  intro u v t
  induction t with
  | nil =>
    intro h
    simp only [containsSub] at h ⊢
    cases u with
    | nil => exact h
    | cons c u' => simp [isPfxOf] at h
  | cons a as ih =>
    intro h
    simp only [containsSub] at h ⊢
    by_cases hp : isPfxOf (u ++ v) (a :: as) = true
    · have := isPfxOf_append_contains u v (a :: as) hp
      simp only [containsSub] at this
      exact this
    · rw [if_neg hp] at h
      by_cases hq : isPfxOf v (a :: as) = true
      · simp [hq]
      · rw [if_neg hq]
        exact ih h

theorem attrPass2_preserve (ctx : List (Str × Str)) (atts : List Attr)
    (anyIdx : Option Nat) (i : Nat) :
    ∀ (l : List (Nat × (Str × Str × Ty))) (vs : List Val) (matched : List Nat)
      (vs' : List Val) (matched' : List Nat),
      (∀ kf ∈ l, kf.1 = i → containsSub (gs "attr") kf.2.2.1 = false) →
      attrPass2 ctx atts anyIdx l vs matched = .ok (vs', matched') →
      vs'.get? i = vs.get? i := by
  intro l
  induction l with
  | nil =>
    intro vs matched vs' matched' _ h
    simp only [attrPass2, Except.ok.injEq, Prod.mk.injEq] at h
    rw [← h.1]
  | cons kf r ih =>
    obtain ⟨k, f⟩ := kf
    intro vs matched vs' matched' hl h
    have hr : ∀ kf ∈ r, kf.1 = i → containsSub (gs "attr") kf.2.2.1 = false :=
      fun kf hm => hl kf (List.mem_cons_of_mem _ hm)
    simp only [attrPass2] at h
    by_cases hc1 : anyIdx = some k
    · rw [if_pos hc1] at h
      exact ih vs matched vs' matched' hr h
    · rw [if_neg hc1] at h
      by_cases hc2 : f.2.1 = [] ∨ (!containsSub (gs "attr") f.2.1) = true
      · rw [if_pos hc2] at h
        exact ih vs matched vs' matched' hr h
      · rw [if_neg hc2] at h
        by_cases hc3 : containsSub (gs ",any,attr") f.2.1 = true
        · rw [if_pos hc3] at h
          exact ih vs matched vs' matched' hr h
        · rw [if_neg hc3] at h
          by_cases hc4 : isPfxOf (gs "xmlns") ((splitChar ',' f.2.1).headD []) = true
          · rw [if_pos hc4] at h
            exact ih vs matched vs' matched' hr h
          · rw [if_neg hc4] at h
            split at h
            next hfind => exact ih vs matched vs' matched' hr h
            next k0 a hfind =>
              split at h
              next e hsf => cases h
              next w hsf =>
                rw [ih (vs.set k w) (matched ++ [k0]) vs' matched' hr h]
                have hk : k ≠ i := by
                  intro hki
                  have hc : containsSub (gs "attr") f.2.1 = false :=
                    hl (k, f) (List.mem_cons_self _ _) hki
                  exact hc2 (Or.inr (by rw [hc]; rfl))
                simp [List.get?_eq_getElem?, List.getElem?_set_ne hk]

theorem decodeAttributes_preserve (ctx : List (Str × Str)) (fs : List (Str × Str × Ty))
    (vs : List Val) (atts : List Attr) (vs' : List Val) (i : Nat)
    (hattr : containsSub (gs "attr") (tagAt fs i) = false)
    (h : decodeAttributes ctx fs vs atts = .ok vs') :
    vs'.get? i = vs.get? i := by
  have hmem : ∀ kf ∈ fs.enum, kf.1 = i → containsSub (gs "attr") kf.2.2.1 = false := by
    intro kf hm hki
    obtain ⟨k, f⟩ := kf
    have hget : fs[k]? = some f := List.mem_enum_iff_getElem?.mp hm
    have hki2 : k = i := hki
    subst hki2
    have htag : tagAt fs k = f.2.1 := by simp [tagAt, hget]
    show containsSub (gs "attr") f.2.1 = false
    rw [← htag]
    exact hattr
  simp only [decodeAttributes] at h
  split at h
  next e hp => cases h
  next vs1 matched hp =>
    have h1 : vs1.get? i = vs.get? i :=
      attrPass2_preserve ctx atts _ i fs.enum vs [] vs1 matched hmem hp
    split at h
    next hnone =>
      obtain rfl : vs1 = vs' := Except.ok.inj h
      exact h1
    next j hany =>
      split at h
      next hcond =>
        obtain rfl : vs' = vs1.set j (.attrList _) := (Except.ok.inj h).symm
        have hji : j ≠ i := by
          intro hji
          obtain ⟨y, hy, hpy⟩ := findIdxP_some hany
          rw [hji] at hy
          have hty : tagAt fs i = y.2.1 := by
            rw [List.get?_eq_getElem?] at hy
            simp [tagAt, hy]
          simp only [Bool.and_eq_true] at hpy
          have hsub := containsSub_append_right (gs ",any,") (gs "attr") y.2.1
            (by rw [show gs ",any," ++ gs "attr" = gs ",any,attr" from rfl]; exact hpy.2)
          rw [hty] at hattr
          rw [hattr] at hsub
          cases hsub
        rw [List.get?_eq_getElem?, List.getElem?_set_ne hji, ← List.get?_eq_getElem?]
        exact h1
      next hcond =>
        obtain rfl : vs1 = vs' := Except.ok.inj h
        exact h1

/-- C9: at the start of every struct-decode frame, a field named XMLName
of type xml.Name (the first such field, with an ordinary tag: no attr,
chardata, cdata, comment, innerxml or ,any marker in it) is set to the
frame element's resolved name, before attributes and children are
processed, and no later step of the frame overwrites it: whenever the
frame decode succeeds, the field holds the element's (URI, local) name. -/
theorem C9_xmlname_set :
    ∀ (ctx : List (Str × Str)) (fuel : Nat) (fs : List (Str × Str × Ty)) (vs : List Val)
      (nm : XName) (atts : List Attr) (fin : Option Str) (toks : List Token)
      (vs' : List Val) (ts : List Token) (i : Nat) (tg : Str),
      fs.get? i = some (gs "XMLName", tg, .nameT) →
      (∀ j, j < i → ∀ y, fs.get? j = some y →
        (decide (y.1 = gs "XMLName") && isNameT y.2.2) = false) →
      i < vs.length →
      containsSub (gs "attr") tg = false →
      containsSub (gs "chardata") tg = false →
      containsSub (gs "cdata") tg = false →
      containsSub (gs "comment") tg = false →
      containsSub (gs "innerxml") tg = false →
      containsSub (gs ",any") tg = false →
      decodeStruct ctx fuel fs vs nm atts fin toks = (.ok vs', ts) →
      vs'.get? i = some (.nameV nm) := by
  intro ctx fuel fs vs nm atts fin toks vs' ts i tg hget hfirst hlen hattr hchd hcd hcom
    hinn hany h
  have htag : tagAt fs i = tg := by
    rw [List.get?_eq_getElem?] at hget
    simp [tagAt, hget]
  have hget' : fs.get? i = some (gs "XMLName", tg, .nameT) := hget
  have hty : tyAt fs i = .nameT := by
    rw [List.get?_eq_getElem?] at hget
    simp [tyAt, hget]
  have hidx : findXMLNameIdx fs = some i := by
    refine findIdxP_eq_some_of hget' (by simp [isNameT]) hfirst
  rcases hrun : run ctx fuel (.structR fs vs nm atts) fin toks with ⟨res, ts0⟩
  unfold decodeStruct at h
  rw [hrun] at h
  cases res with
  | error e => simp at h
  | ok resp =>
    cases resp with
    | one w => simp at h
    | many vsm =>
      simp only [Prod.mk.injEq, Except.ok.injEq] at h
      rw [← h.1]
      cases fuel with
      | zero => simp [run] at hrun
      | succ f =>
        simp only [run, setXMLNameF, hidx] at hrun
        have hset : (vs.set i (Val.nameV nm)).get? i = some (.nameV nm) := by
          rw [List.get?_eq_getElem?]
          exact List.getElem?_set_eq_of_lt _ hlen
        split at hrun
        next e hAtt => simp at hrun
        next vs1 hAtt =>
          have h1 : vs1.get? i = some (.nameV nm) := by
            rw [decodeAttributes_preserve ctx fs _ atts vs1 i (by rw [htag]; exact hattr)
              hAtt]
            exact hset
          split at hrun
          next j hinnidx =>
            have hji : j ≠ i := by
              intro hji
              obtain ⟨y, hy, hpy⟩ := findIdxP_some hinnidx
              rw [hji, hget'] at hy
              obtain rfl := Option.some.inj hy
              simp only [Bool.and_eq_true] at hpy
              have : containsSub (gs "innerxml") tg = true := hpy.2
              rw [hinn] at this
              cases this
            split at hrun
            next e hc => simp at hrun
            next hc =>
              simp only [Prod.mk.injEq, Except.ok.injEq, Resp.many.injEq] at hrun
              rw [← hrun.1]
              exact h1
            next content ts2 hc =>
              split at hrun
              next s hval =>
                simp only [Prod.mk.injEq, Except.ok.injEq, Resp.many.injEq] at hrun
                rw [← hrun.1]
                rw [List.get?_eq_getElem?, List.getElem?_set_ne hji,
                  ← List.get?_eq_getElem?]
                exact h1
              next hval =>
                simp only [Prod.mk.injEq, Except.ok.injEq, Resp.many.injEq] at hrun
                rw [← hrun.1]
                exact h1
          next hinnidx =>
            have hne_any : findAnyIdx fs ≠ some i := by
              intro hx
              obtain ⟨y, hy, hpy⟩ := findIdxP_some hx
              rw [hget'] at hy
              obtain rfl := Option.some.inj hy
              simp only [Bool.and_eq_true] at hpy
              have : containsSub (gs ",any") tg = true := hpy.1.2
              rw [hany] at this
              cases this
            have hne_ch : findChardataIdx fs ≠ some i := by
              intro hx
              obtain ⟨y, hy, hpy⟩ := findIdxP_some hx
              rw [hget'] at hy
              obtain rfl := Option.some.inj hy
              simp only [Bool.and_eq_true] at hpy
              have : containsSub (gs "chardata") tg = true := hpy.2
              rw [hchd] at this
              cases this
            have hne_cd : findCDataIdx fs ≠ some i := by
              intro hx
              obtain ⟨y, hy, hpy⟩ := findIdxP_some hx
              rw [hget'] at hy
              obtain rfl := Option.some.inj hy
              simp only [Bool.and_eq_true] at hpy
              have : containsSub (gs "cdata") tg = true := hpy.1.2
              rw [hcd] at this
              cases this
            have hne_com : findCommentIdx fs ≠ some i := by
              intro hx
              obtain ⟨y, hy, hpy⟩ := findIdxP_some hx
              rw [hget'] at hy
              obtain rfl := Option.some.inj hy
              simp only [Bool.and_eq_true] at hpy
              have : containsSub (gs "comment") tg = true := hpy.2
              rw [hcom] at this
              cases this
            rw [(run_preserve ctx i f).1 fs vs1 _ _ _ _ [] [] fin toks vsm ts0 hty
              hne_any hne_ch hne_cd hne_com hrun]
            exact h1

/-- Witness for C9: a two-field record whose XMLName field ends up
holding the frame element's resolved name after a successful decode. -/
theorem C9_xmlname_set_witness :
    [Val.nameV ⟨[], gs "user"⟩, Val.str (gs "Jane")].get? 0 =
      some (Val.nameV ⟨[], gs "user"⟩) :=
  C9_xmlname_set [] 5
    [(gs "XMLName", gs "user", Ty.nameT), (gs "Name", gs "name", Ty.str)]
    [Val.nameV ⟨[], []⟩, Val.str []] ⟨[], gs "user"⟩ [] none
    [.start ⟨[], gs "name"⟩ [], .chardata (gs "Jane"), .endE ⟨[], gs "name"⟩,
      .endE ⟨[], gs "user"⟩]
    [Val.nameV ⟨[], gs "user"⟩, Val.str (gs "Jane")] [] 0 (gs "user")
    rfl (fun j hj y hy => absurd hj (Nat.not_lt_zero j)) (by decide) (by decide)
    (by decide) (by decide) (by decide) (by decide) (by decide) rfl

end Xmlctx
